import Mathlib

/-!
Verification of the scalargrad reverse-mode automatic-differentiation engine.

The embedding models the Rust sources faithfully:
  * src/arena.rs   : an append-only arena over a vector (`push`, `node`,
    `node_mut`), embedded as a `List` with explicit index accessors; the
    out-of-range panic of `Vec` indexing is modelled by `Option`-returning
    accessors.
  * src/scalar.rs  : the node record (`ScalarData`), the tier-1 operation
    tag (`Op`), the operator surface (add/mul/pow/relu and the derived
    sub/div/neg and float-constant forms), the depth-first topological sort
    (`dfs`/`topo`) and the backward pass (`opBackward`/`backward`).
  * src/nn.rs      : the perceptron / layer / multi-layer-perceptron model
    layer; the `unwrap` of `reduce` is modelled by an `Option` result.

Machine floats (`f64`) are embedded as rational numbers: every numeric
value the verified claims exercise (1.5, -4.0, 5.0, the exponents 3.0, 2.0,
-1.0, the literals 16.675, 1.35, -8.0) is exactly representable, and the
repository's own tests assert exact equality on them.  `f64::powf` is
modelled by `fpow`, which agrees with float powf on the integer exponents
that are the only exponents the engine ever uses.

Mutation of the graph behind the `RwLock` is sequential in the source
(every lock is held for one read or one write); the embedding passes the
arena state explicitly.
-/

namespace ScalarGrad

/-- The tier-1 operators (enum `Op` of src/scalar.rs); variants store the
arena indices of the parent (operand) nodes. -/
inductive Op where
  | none
  | add (s o : Nat)
  | mul (s o : Nat)
  | pow (s : Nat) (k : ℚ)
  | relu (s : Nat)
deriving Repr, DecidableEq, Inhabited

/-- The node record (`ScalarData` of src/scalar.rs): forward value,
gradient accumulator, producing operation. -/
structure ScalarData where
  data : ℚ
  grad : ℚ
  op : Op
deriving Repr, DecidableEq, Inhabited

/-- The arena of src/arena.rs: a wrapper over a growable vector. -/
abbrev Arena := List ScalarData

/-- `Arena::push`: append, then return `nodes.len() - 1`. -/
def push (a : Arena) (d : ScalarData) : Arena × Nat :=
  let n := a ++ [d]
  (n, n.length - 1)

/-- `Arena::node` (read access `&self.nodes[id]`); `Option.none` models the
index-out-of-range panic of vector indexing. -/
def node? (a : Arena) (id : Nat) : Option ScalarData :=
  a.get? id

/-- `Arena::node_mut` followed by a store: writing record `d` at `id`;
`Option.none` models the index-out-of-range panic. -/
def trySetNode (a : Arena) (id : Nat) (d : ScalarData) : Option Arena :=
  if id < a.length then some (a.set id d) else Option.none

/-- Total read access used where the DAG invariant guarantees the index is
in range (the panic case is unreachable there). -/
def nodeD (a : Arena) (id : Nat) : ScalarData :=
  a.getD id default

/-- `ScalarGraph::scalar`: mint a leaf node with the given value,
gradient 0.0, operation `None`. -/
def scalar (a : Arena) (v : ℚ) : Arena × Nat :=
  push a { data := v, grad := 0, op := Op.none }

/-- `ScalarGraph::scalar_op`: mint a derived node with the already
forward-evaluated value and the producing operation. -/
def scalarOp (a : Arena) (v : ℚ) (op : Op) : Arena × Nat :=
  push a { data := v, grad := 0, op := op }

/-- `Scalar::data`. -/
def dataOf (a : Arena) (id : Nat) : ℚ :=
  (nodeD a id).data

/-- `Scalar::grad`. -/
def gradOf (a : Arena) (id : Nat) : ℚ :=
  (nodeD a id).grad

/-- `Scalar::set_grad`: overwrite the gradient field. -/
def setGrad (a : Arena) (id : Nat) (g : ℚ) : Arena :=
  a.set id { nodeD a id with grad := g }

/-- `grad += dg` on one node, the accumulation step of the backward rules. -/
def addGrad (a : Arena) (id : Nat) (dg : ℚ) : Arena :=
  a.set id { nodeD a id with grad := (nodeD a id).grad + dg }

/-- Model of `f64::powf` on the rational embedding of float values.  Every
exponent the engine uses is an integer-valued float (3.0, 2.0, -1.0 and the
derived k-1.0), on which powf agrees with the integer power; non-integer
exponents are never exercised by the verified claims and map to 0. -/
def fpow (x k : ℚ) : ℚ :=
  if k.den = 1 then x ^ k.num else 0

/-- `Scalar::pow`. -/
def powS (a : Arena) (x : Nat) (k : ℚ) : Arena × Nat :=
  scalarOp a (fpow (dataOf a x) k) (Op.pow x k)

/-- `Scalar::relu`. -/
def reluS (a : Arena) (x : Nat) : Arena × Nat :=
  scalarOp a (if dataOf a x > 0 then dataOf a x else 0) (Op.relu x)

/-- `impl Add for Scalar` (handle + handle). -/
def addS (a : Arena) (x y : Nat) : Arena × Nat :=
  scalarOp a (dataOf a x + dataOf a y) (Op.add x y)

/-- `impl Mul for Scalar` (handle * handle). -/
def mulS (a : Arena) (x y : Nat) : Arena × Nat :=
  scalarOp a (dataOf a x * dataOf a y) (Op.mul x y)

/-- `impl Add<f64> for Scalar`: mint a leaf for the constant, then add. -/
def addF (a : Arena) (x : Nat) (c : ℚ) : Arena × Nat :=
  let p := scalar a c
  scalarOp p.1 (dataOf p.1 x + dataOf p.1 p.2) (Op.add x p.2)

/-- `impl Add<Scalar> for f64`: mint a leaf for the constant, then add. -/
def fAddS (c : ℚ) (a : Arena) (y : Nat) : Arena × Nat :=
  let p := scalar a c
  scalarOp p.1 (dataOf p.1 p.2 + dataOf p.1 y) (Op.add p.2 y)

/-- `impl Mul<f64> for Scalar`: mint a leaf for the constant, then multiply;
the new node's operands are `(handle, leaf)` in that order. -/
def mulF (a : Arena) (x : Nat) (c : ℚ) : Arena × Nat :=
  let p := scalar a c
  scalarOp p.1 (dataOf p.1 x * dataOf p.1 p.2) (Op.mul x p.2)

/-- `impl Mul<Scalar> for f64`: mint a leaf for the constant, then multiply;
the new node's operands are `(leaf, handle)` in that order. -/
def fMulS (c : ℚ) (a : Arena) (y : Nat) : Arena × Nat :=
  let p := scalar a c
  scalarOp p.1 (dataOf p.1 p.2 * dataOf p.1 y) (Op.mul p.2 y)

/-- `impl Neg for Scalar`: `-x` is `-1.0 * x`. -/
def negS (a : Arena) (x : Nat) : Arena × Nat :=
  fMulS (-1) a x

/-- `impl Sub for Scalar`: `x - y` is `x + (-y)`. -/
def subS (a : Arena) (x y : Nat) : Arena × Nat :=
  let p := negS a y
  addS p.1 x p.2

/-- `impl Sub<f64> for Scalar`: `x - c` is `x + (-c)`. -/
def subF (a : Arena) (x : Nat) (c : ℚ) : Arena × Nat :=
  addF a x (-c)

/-- `impl Sub<Scalar> for f64`: `c - y` is `c + (-y)`. -/
def fSubS (c : ℚ) (a : Arena) (y : Nat) : Arena × Nat :=
  let p := negS a y
  fAddS c p.1 p.2

/-- `impl Div for Scalar`: `x / y` is `x * y.pow(-1.0)`. -/
def divS (a : Arena) (x y : Nat) : Arena × Nat :=
  let p := powS a y (-1)
  mulS p.1 x p.2

/-- `impl Div<f64> for Scalar`: `x / c` is `x * c.powf(-1.0)`, the float
reciprocal being computed before it is minted as a leaf. -/
def divF (a : Arena) (x : Nat) (c : ℚ) : Arena × Nat :=
  mulF a x (fpow c (-1))

/-- `impl Div<Scalar> for f64`: `c / y` is `c * y.pow(-1.0)`. -/
def fDivS (c : ℚ) (a : Arena) (y : Nat) : Arena × Nat :=
  let p := powS a y (-1)
  fMulS c p.1 p.2

/-- The operand indices stored in an operation tag, in order. -/
def operandsOf : Op → List Nat
  | Op.none => []
  | Op.add s o => [s, o]
  | Op.mul s o => [s, o]
  | Op.pow s _ => [s]
  | Op.relu s => [s]

/-- `Op::backward` of src/scalar.rs: read the node's own gradient once,
then accumulate the local rule into each operand's gradient, sequentially
in source order. -/
def opBackward (a : Arena) (id : Nat) : Arena :=
  let g := (nodeD a id).grad
  match (nodeD a id).op with
  | Op.none => a
  | Op.add s o => addGrad (addGrad a s g) o g
  | Op.mul s o =>
      let a1 := addGrad a s ((nodeD a o).data * g)
      addGrad a1 o ((nodeD a1 s).data * g)
  | Op.pow s k => addGrad a s ((k * fpow (nodeD a s).data (k - 1)) * g)
  | Op.relu s => addGrad a s (if (nodeD a id).data > 0 then g else 0)

/-- The recursive worker of `Scalar::topo`: depth-first search guarded by a
visited set, appending a node after all its operands.  Recursion descends
along operand edges; the `q < id` guards record the DAG invariant (operands
are created strictly before the node referencing them) that makes the Rust
recursion terminate, and are always true on well-formed arenas. -/
def dfs (a : Arena) (id : Nat) (sort : List Nat) (visited : List Nat) :
    List Nat × List Nat :=
  if id ∈ visited then (sort, visited)
  else
    let vis1 := id :: visited
    let res :=
      match (nodeD a id).op with
      | Op.none => (sort, vis1)
      | Op.add s o =>
          if hs : s < id then
            let r1 := dfs a s sort vis1
            if ho : o < id then dfs a o r1.1 r1.2 else r1
          else if ho : o < id then dfs a o sort vis1 else (sort, vis1)
      | Op.mul s o =>
          if hs : s < id then
            let r1 := dfs a s sort vis1
            if ho : o < id then dfs a o r1.1 r1.2 else r1
          else if ho : o < id then dfs a o sort vis1 else (sort, vis1)
      | Op.pow s _ =>
          if hs : s < id then dfs a s sort vis1 else (sort, vis1)
      | Op.relu s =>
          if hs : s < id then dfs a s sort vis1 else (sort, vis1)
    (res.1 ++ [id], res.2)
termination_by id

/-- `Scalar::topo`: the topological order of the subgraph reachable from
`root`, root last. -/
def topo (a : Arena) (root : Nat) : List Nat :=
  (dfs a root [] []).1

/-- `Scalar::backward`: topological sort, seed the root gradient with 1.0,
then apply each node's local backward rule walking the order in reverse. -/
def backward (a : Arena) (root : Nat) : Arena :=
  let sorted := topo a root
  sorted.reverse.foldl (fun s id => opBackward s id) (setGrad a root 1)

/-- The DAG well-formedness invariant of the arena: every operand index
stored in a node's operation was allocated strictly before that node.
Every arena built through the public operator surface satisfies it. -/
def WF (a : Arena) : Prop :=
  ∀ i, i < a.length → ∀ q ∈ operandsOf (nodeD a i).op, q < i

instance (a : Arena) : Decidable (WF a) := by
  unfold WF; infer_instance

/-- Reachability along operand edges, from the root downward. -/
inductive Reaches (a : Arena) (root : Nat) : Nat → Prop where
  | refl : Reaches a root root
  | step {p n : Nat} : Reaches a root p → n ∈ operandsOf (nodeD a p).op →
      Reaches a root n

/-- The local derivative coefficient that `Op::backward` applied at node `p`
multiplies into `p`'s own gradient before accumulating it onto node `n`:
1 per `Add` operand slot, the sibling's value per `Mul` slot,
`k * value^(k-1)` for `Pow`, the activation gate for `ReLU`.  A slot held
twice by the same operand contributes twice, matching the two sequential
`+=` writes of the source. -/
def dcoef (a : Arena) (p n : Nat) : ℚ :=
  match (nodeD a p).op with
  | Op.none => 0
  | Op.add s o => (if s = n then 1 else 0) + (if o = n then 1 else 0)
  | Op.mul s o =>
      (if s = n then (nodeD a o).data else 0) +
      (if o = n then (nodeD a s).data else 0)
  | Op.pow s k => if s = n then k * fpow (nodeD a s).data (k - 1) else 0
  | Op.relu s =>
      if s = n then (if (nodeD a p).data > 0 then 1 else 0) else 0

/-- The loop body of `Scalar::backward`: apply the local rules along a list
of node indices in order. -/
def process (a : Arena) (l : List Nat) : Arena :=
  l.foldl opBackward a

/-- Two arenas with the same length and the same value and operation fields
everywhere (they may differ in gradients only). -/
def SameShape (a b : Arena) : Prop :=
  a.length = b.length ∧
  ∀ n, (nodeD a n).data = (nodeD b n).data ∧ (nodeD a n).op = (nodeD b n).op

/-- Lists that append each node only after all its operands: the shape in
which `dfs` produces its output. -/
inductive TopoOrd (a : Arena) : List Nat → Prop where
  | nil : TopoOrd a []
  | snoc {t : List Nat} {p : Nat} : TopoOrd a t →
      (∀ q ∈ operandsOf (nodeD a p).op, q ∈ t) → TopoOrd a (t ++ [p])

/-- The invariant `dfs` maintains on its `sort` and `visited` accumulators. -/
structure DfsInv (a : Arena) (sort visited : List Nat) : Prop where
  nodup : sort.Nodup
  subVis : ∀ n ∈ sort, n ∈ visited
  bounded : ∀ n ∈ sort, n < a.length
  ord : TopoOrd a sort

/-- What one `dfs` call guarantees, relative to its entry accumulators. -/
structure DfsOut (a : Arena) (id : Nat) (sort visited : List Nat)
    (r : List Nat × List Nat) : Prop where
  grow : ∃ d, r.1 = sort ++ d
  inv : DfsInv a r.1 r.2
  visGrow : ∀ n ∈ visited, n ∈ r.2
  visChar : ∀ n ∈ r.2, n ∈ r.1 ∨ (n ∈ visited ∧ id < n)
  memId : id ∈ r.1
  newReach : ∀ n ∈ r.1, n ∈ sort ∨ Reaches a id n
  complete : ∀ n, Reaches a id n → n ∈ r.1

/-- Arenas built through the public node-minting surface: leaf creation and
the operator/activation calls, each applied to handles of this graph. -/
inductive Built : Arena → Prop where
  | nil : Built []
  | scalar {a : Arena} (v : ℚ) : Built a → Built (scalar a v).1
  | addS {a : Arena} {x y : Nat} : Built a → x < a.length → y < a.length →
      Built (addS a x y).1
  | mulS {a : Arena} {x y : Nat} : Built a → x < a.length → y < a.length →
      Built (mulS a x y).1
  | powS {a : Arena} {x : Nat} (k : ℚ) : Built a → x < a.length →
      Built (powS a x k).1
  | reluS {a : Arena} {x : Nat} : Built a → x < a.length →
      Built (reluS a x).1
  | addF {a : Arena} {x : Nat} (c : ℚ) : Built a → x < a.length →
      Built (addF a x c).1
  | fAddS {a : Arena} {y : Nat} (c : ℚ) : Built a → y < a.length →
      Built (fAddS c a y).1
  | mulF {a : Arena} {x : Nat} (c : ℚ) : Built a → x < a.length →
      Built (mulF a x c).1
  | fMulS {a : Arena} {y : Nat} (c : ℚ) : Built a → y < a.length →
      Built (fMulS c a y).1

/-- The composite expression of the backwards test: leaves a = 1.5 and
b = -4.0, c = a.pow(3.0) / 5.0, d = relu(b.pow(2.0)) + c; returns the final
arena and the handles of a, b and d. -/
def buildC1 : Arena × Nat × Nat × Nat :=
  let pa := scalar [] (3/2)
  let pb := scalar pa.1 (-4)
  let p3 := powS pb.1 pa.2 3
  let pc := divF p3.1 p3.2 5
  let q2 := powS pc.1 pb.2 2
  let qr := reluS q2.1 q2.2
  let pd := addS qr.1 qr.2 pc.2
  (pd.1, pa.2, pb.2, pd.2)

/-- A perceptron (`Neuron` of src/nn.rs): `w[0]` is the bias, `w[1..]` the
weights, plus the activation flag. -/
structure Neuron where
  w : List Nat
  relu : Bool

/-- `ScalarGraph::neuron`: mint one leaf per random draw `r` with value
`2.0 * r - 1.0`; the draws of `rand::random` are passed in as a list, one
per weight, so a neuron of input width `nin` receives `nin + 1` draws. -/
def neuronNew (a : Arena) (rs : List ℚ) (relu : Bool) : Arena × Neuron :=
  let step := rs.foldl
    (fun (p : Arena × List Nat) r =>
      let q := scalar p.1 (2 * r - 1)
      (q.1, p.2 ++ [q.2]))
    (a, [])
  (step.1, { w := step.2, relu := relu })

/-- `Neuron::call`: pair the non-bias weights with the inputs, mint one
product node per pair, fold the products with sums, add the bias, then
optionally apply ReLU.  `Option.none` models the two panic paths: indexing
`w[1..]`/`w[0]` on an empty weight vector, and the `unwrap` of `reduce`
when the weight/input zip is empty. -/
def neuronCall (a : Arena) (nr : Neuron) (x : List Nat) :
    Option (Arena × Nat) :=
  match nr.w with
  | [] => Option.none
  | b :: ws =>
    match ws.zip x with
    | [] => Option.none
    | wx0 :: rest =>
        let first := mulS a wx0.1 wx0.2
        let acc := rest.foldl
          (fun (p : Arena × Nat) wx =>
            let q := mulS p.1 wx.1 wx.2
            addS q.1 p.2 q.2)
          first
        let act := addS acc.1 acc.2 b
        some (if nr.relu then reluS act.1 act.2 else act)

/-- A layer (`Layer` of src/nn.rs): an ordered sequence of neurons. -/
structure Layer where
  neurons : List Neuron

/-- `Layer::call`: apply every neuron to the same input vector, collecting
the scalar outputs; a faulting neuron faults the layer (the source's
`unreachable` arm for a non-scalar neuron output cannot fire, since a
neuron that returns at all returns a scalar). -/
def layerCall (a : Arena) (l : Layer) (x : List Nat) :
    Option (Arena × List Nat) :=
  l.neurons.foldl
    (fun acc nr =>
      Option.bind acc (fun p =>
        Option.bind (neuronCall p.1 nr x) (fun q =>
          some (q.1, p.2 ++ [q.2]))))
    (some (a, []))

/-- The output shape of a model evaluation (`ModelOutput` of src/nn.rs). -/
inductive ModelOut where
  | start
  | scalarOut (s : Nat)
  | vectorOut (v : List Nat)

/-- A multi-layer perceptron (`MLP` of src/nn.rs). -/
structure MLP where
  layers : List Layer

/-- `MLP::call`: thread each layer's output vector into the next layer;
the first layer receives the caller's inputs (the accumulator starts in
the `None` state of the source). -/
def mlpCall (a : Arena) (m : MLP) (x : List Nat) :
    Option (Arena × ModelOut) :=
  m.layers.foldl
    (fun acc l =>
      Option.bind acc (fun p =>
        match p.2 with
        | ModelOut.scalarOut s =>
            Option.bind (layerCall p.1 l [s]) (fun q =>
              some (q.1, ModelOut.vectorOut q.2))
        | ModelOut.vectorOut v =>
            Option.bind (layerCall p.1 l v) (fun q =>
              some (q.1, ModelOut.vectorOut q.2))
        | ModelOut.start =>
            Option.bind (layerCall p.1 l x) (fun q =>
              some (q.1, ModelOut.vectorOut q.2))))
    (some (a, ModelOut.start))

/-! ### Basic lemmas about arena access and the gradient writers -/

theorem nodeD_set_self (a : Arena) (i : Nat) (d : ScalarData)
    (h : i < a.length) : nodeD (a.set i d) i = d := by
  simp [nodeD, List.getD_eq_getElem?_getD, List.getElem?_set_self, h]

theorem nodeD_set_ne (a : Arena) (d : ScalarData) {i j : Nat} (h : i ≠ j) :
    nodeD (a.set i d) j = nodeD a j := by
  simp [nodeD, List.getD_eq_getElem?_getD, List.getElem?_set_ne h]

theorem nodeD_append_lt (a l : Arena) (n : Nat) (h : n < a.length) :
    nodeD (a ++ l) n = nodeD a n :=
  List.getD_append a l default n h

theorem nodeD_append_self (a : Arena) (d : ScalarData) :
    nodeD (a ++ [d]) a.length = d := by
  have h := List.getD_append_right a [d] default a.length (le_refl _)
  simpa [nodeD] using h

theorem length_setGrad (a : Arena) (i : Nat) (g : ℚ) :
    (setGrad a i g).length = a.length := by
  simp [setGrad]

theorem length_addGrad (a : Arena) (i : Nat) (dg : ℚ) :
    (addGrad a i dg).length = a.length := by
  simp [addGrad]

theorem gradOf_setGrad (a : Arena) (i : Nat) (g : ℚ) (j : Nat) :
    gradOf (setGrad a i g) j =
      if j = i ∧ i < a.length then g else gradOf a j := by
  by_cases hi : i < a.length
  · by_cases hj : j = i
    · subst hj; simp [gradOf, setGrad, nodeD_set_self _ _ _ hi, hi]
    · simp [gradOf, setGrad, nodeD_set_ne _ _ (fun h => hj h.symm), hj]
  · simp [gradOf, setGrad, List.set_eq_of_length_le (le_of_not_lt hi), hi]

theorem gradOf_addGrad (a : Arena) (i : Nat) (dg : ℚ) (j : Nat) :
    gradOf (addGrad a i dg) j =
      if j = i ∧ i < a.length then gradOf a j + dg else gradOf a j := by
  by_cases hi : i < a.length
  · by_cases hj : j = i
    · subst hj; simp [gradOf, addGrad, nodeD_set_self _ _ _ hi, hi]
    · simp [gradOf, addGrad, nodeD_set_ne _ _ (fun h => hj h.symm), hj]
  · simp [gradOf, addGrad, List.set_eq_of_length_le (le_of_not_lt hi), hi]

theorem nodeD_setGrad_data (a : Arena) (i : Nat) (g : ℚ) (j : Nat) :
    (nodeD (setGrad a i g) j).data = (nodeD a j).data := by
  by_cases hi : i < a.length
  · by_cases hj : i = j
    · subst hj; simp [setGrad, nodeD_set_self _ _ _ hi]
    · simp [setGrad, nodeD_set_ne _ _ hj]
  · simp [setGrad, List.set_eq_of_length_le (le_of_not_lt hi)]

theorem nodeD_setGrad_op (a : Arena) (i : Nat) (g : ℚ) (j : Nat) :
    (nodeD (setGrad a i g) j).op = (nodeD a j).op := by
  by_cases hi : i < a.length
  · by_cases hj : i = j
    · subst hj; simp [setGrad, nodeD_set_self _ _ _ hi]
    · simp [setGrad, nodeD_set_ne _ _ hj]
  · simp [setGrad, List.set_eq_of_length_le (le_of_not_lt hi)]

theorem nodeD_addGrad_data (a : Arena) (i : Nat) (dg : ℚ) (j : Nat) :
    (nodeD (addGrad a i dg) j).data = (nodeD a j).data := by
  by_cases hi : i < a.length
  · by_cases hj : i = j
    · subst hj; simp [addGrad, nodeD_set_self _ _ _ hi]
    · simp [addGrad, nodeD_set_ne _ _ hj]
  · simp [addGrad, List.set_eq_of_length_le (le_of_not_lt hi)]

theorem nodeD_addGrad_op (a : Arena) (i : Nat) (dg : ℚ) (j : Nat) :
    (nodeD (addGrad a i dg) j).op = (nodeD a j).op := by
  by_cases hi : i < a.length
  · by_cases hj : i = j
    · subst hj; simp [addGrad, nodeD_set_self _ _ _ hi]
    · simp [addGrad, nodeD_set_ne _ _ hj]
  · simp [addGrad, List.set_eq_of_length_le (le_of_not_lt hi)]

/-! ### Shape preservation -/

theorem sameShape_refl (a : Arena) : SameShape a a :=
  ⟨rfl, fun _ => ⟨rfl, rfl⟩⟩

theorem sameShape_trans {a b c : Arena} (h1 : SameShape a b)
    (h2 : SameShape b c) : SameShape a c := by
  refine ⟨h1.1.trans h2.1, fun n => ?_⟩
  exact ⟨(h1.2 n).1.trans (h2.2 n).1, (h1.2 n).2.trans (h2.2 n).2⟩

theorem sameShape_setGrad (a : Arena) (i : Nat) (g : ℚ) :
    SameShape a (setGrad a i g) := by
  refine ⟨(length_setGrad a i g).symm, fun n => ?_⟩
  exact ⟨(nodeD_setGrad_data a i g n).symm, (nodeD_setGrad_op a i g n).symm⟩

theorem sameShape_addGrad (a : Arena) (i : Nat) (dg : ℚ) :
    SameShape a (addGrad a i dg) := by
  refine ⟨(length_addGrad a i dg).symm, fun n => ?_⟩
  exact ⟨(nodeD_addGrad_data a i dg n).symm, (nodeD_addGrad_op a i dg n).symm⟩

theorem sameShape_opBackward (a : Arena) (id : Nat) :
    SameShape a (opBackward a id) := by
  unfold opBackward
  rcases hop : (nodeD a id).op with _ | ⟨s, o⟩ | ⟨s, o⟩ | ⟨s, k⟩ | s <;>
    simp only [hop]
  · exact sameShape_refl a
  · exact sameShape_trans (sameShape_addGrad _ _ _) (sameShape_addGrad _ _ _)
  · exact sameShape_trans (sameShape_addGrad _ _ _) (sameShape_addGrad _ _ _)
  · exact sameShape_addGrad _ _ _
  · exact sameShape_addGrad _ _ _

theorem sameShape_process (a : Arena) (l : List Nat) :
    SameShape a (process a l) := by
  induction l generalizing a with
  | nil => exact sameShape_refl a
  | cons p t ih =>
      exact sameShape_trans (sameShape_opBackward a p) (ih (opBackward a p))

theorem wf_of_sameShape {a b : Arena} (h : SameShape a b) (hWF : WF a) :
    WF b := by
  intro i hi q hq
  have hi' : i < a.length := h.1 ▸ hi
  exact hWF i hi' q (((h.2 i).2) ▸ hq)

theorem dcoef_of_sameShape {a b : Arena} (h : SameShape a b) (p n : Nat) :
    dcoef a p n = dcoef b p n := by
  unfold dcoef
  rw [(h.2 p).2.symm]
  rcases (nodeD a p).op with _ | ⟨s, o⟩ | ⟨s, o⟩ | ⟨s, k⟩ | s <;> dsimp only
  · rw [(h.2 o).1, (h.2 s).1]
  · rw [(h.2 s).1]
  · rw [(h.2 p).1]

theorem reaches_of_sameShape {a b : Arena} (h : SameShape a b) {root n : Nat}
    (hr : Reaches a root n) : Reaches b root n := by
  induction hr with
  | refl => exact Reaches.refl
  | step hp hq ih => exact Reaches.step ih (((h.2 _).2) ▸ hq)

/-! ### The local backward rule as a single gradient update -/

theorem dcoef_eq_zero (a : Arena) (p n : Nat)
    (h : n ∉ operandsOf (nodeD a p).op) : dcoef a p n = 0 := by
  unfold dcoef
  rcases hm : (nodeD a p).op with _ | ⟨s, o⟩ | ⟨s, o⟩ | ⟨s, k⟩ | s <;>
    rw [hm] at h <;> simp [operandsOf] at h <;> dsimp only
  · rw [if_neg (fun hc => h.1 hc.symm), if_neg (fun hc => h.2 hc.symm)]; ring
  · rw [if_neg (fun hc => h.1 hc.symm), if_neg (fun hc => h.2 hc.symm)]; ring
  · rw [if_neg (fun hc => h hc.symm)]
  · rw [if_neg (fun hc => h hc.symm)]

theorem gradOf_addGrad_one (a : Arena) {s : Nat} (hs : s < a.length)
    (u : ℚ) (n : Nat) :
    gradOf (addGrad a s u) n = gradOf a n + (if s = n then u else 0) := by
  simp only [gradOf_addGrad, hs, and_true]
  by_cases hns : n = s
  · subst hns; simp
  · have h2 : ¬s = n := fun h => hns h.symm
    simp [hns, h2]

theorem gradOf_addGrad_two (a : Arena) {s o : Nat} (hs : s < a.length)
    (ho : o < a.length) (u v : ℚ) (n : Nat) :
    gradOf (addGrad (addGrad a s u) o v) n =
      gradOf a n + (if s = n then u else 0) + (if o = n then v else 0) := by
  rw [gradOf_addGrad_one (addGrad a s u) (by rw [length_addGrad]; exact ho)
    v n, gradOf_addGrad_one a hs u n]

theorem gradOf_opBackward (a : Arena) (hWF : WF a) {p : Nat}
    (hp : p < a.length) (n : Nat) :
    gradOf (opBackward a p) n = gradOf a n + dcoef a p n * gradOf a p := by
  have hops : ∀ q ∈ operandsOf (nodeD a p).op, q < a.length :=
    fun q hq => lt_trans (hWF p hp q hq) hp
  unfold opBackward dcoef
  rcases hm : (nodeD a p).op with _ | ⟨s, o⟩ | ⟨s, o⟩ | ⟨s, k⟩ | s <;> dsimp only
  · simp [gradOf]
  · have hs : s < a.length := hops s (by rw [hm]; simp [operandsOf])
    have ho : o < a.length := hops o (by rw [hm]; simp [operandsOf])
    rw [gradOf_addGrad_two a hs ho _ _ n]
    simp only [gradOf, add_mul, ite_mul, one_mul, zero_mul]
    ring
  · have hs : s < a.length := hops s (by rw [hm]; simp [operandsOf])
    have ho : o < a.length := hops o (by rw [hm]; simp [operandsOf])
    simp only [nodeD_addGrad_data]
    rw [gradOf_addGrad_two a hs ho _ _ n]
    simp only [gradOf, add_mul, ite_mul, zero_mul]
    ring
  · have hs : s < a.length := hops s (by rw [hm]; simp [operandsOf])
    rw [gradOf_addGrad_one a hs _ n]
    simp only [gradOf, ite_mul, zero_mul]
  · have hs : s < a.length := hops s (by rw [hm]; simp [operandsOf])
    rw [gradOf_addGrad_one a hs _ n]
    simp only [gradOf, ite_mul, one_mul, zero_mul]

/-! ### The backward loop: frozen gradients and the accumulation sum -/

theorem gradOf_process_frozen (l : List Nat) (a : Arena) (hWF : WF a)
    (hl : ∀ q ∈ l, q < a.length) (n : Nat)
    (hn : ∀ q ∈ l, dcoef a q n = 0) :
    gradOf (process a l) n = gradOf a n := by
  induction l generalizing a with
  | nil => rfl
  | cons q t ih =>
      have hq : q < a.length := hl q (List.mem_cons_self q t)
      have hsh : SameShape a (opBackward a q) := sameShape_opBackward a q
      have step : gradOf (opBackward a q) n = gradOf a n := by
        rw [gradOf_opBackward a hWF hq n, hn q (List.mem_cons_self q t)]
        ring
      have := ih (opBackward a q) (wf_of_sameShape hsh hWF)
        (fun r hr => hsh.1 ▸ hl r (List.mem_cons_of_mem q hr))
        (fun r hr => (dcoef_of_sameShape hsh r n).symm.trans
          (hn r (List.mem_cons_of_mem q hr)))
      calc gradOf (process a (q :: t)) n
          = gradOf (process (opBackward a q) t) n := rfl
        _ = gradOf (opBackward a q) n := this
        _ = gradOf a n := step

theorem gradOf_process_sum (l : List Nat) (a : Arena) (hWF : WF a)
    (hnd : l.Nodup) (hl : ∀ q ∈ l, q < a.length)
    (hdiag : ∀ q ∈ l, dcoef a q q = 0)
    (hpair : l.Pairwise (fun q r => dcoef a r q = 0)) (n : Nat) :
    gradOf (process a l) n =
      gradOf a n +
        (l.map (fun p => dcoef a p n * gradOf (process a l) p)).sum := by
  induction l generalizing a with
  | nil => simp [process]
  | cons p t ih =>
      have hp : p < a.length := hl p (List.mem_cons_self p t)
      have hsh : SameShape a (opBackward a p) := sameShape_opBackward a p
      have hWF1 : WF (opBackward a p) := wf_of_sameShape hsh hWF
      have hl1 : ∀ q ∈ t, q < (opBackward a p).length :=
        fun r hr => hsh.1 ▸ hl r (List.mem_cons_of_mem p hr)
      have hdiag1 : ∀ q ∈ t, dcoef (opBackward a p) q q = 0 :=
        fun r hr => (dcoef_of_sameShape hsh r r).symm.trans
          (hdiag r (List.mem_cons_of_mem p hr))
      have hpair1 : t.Pairwise (fun q r => dcoef (opBackward a p) r q = 0) := by
        refine (List.pairwise_cons.mp hpair).2.imp ?_
        intro q r hqr
        exact (dcoef_of_sameShape hsh r q).symm.trans hqr
      -- the head's gradient is already final when it is processed
      have hfrozen : gradOf (process (opBackward a p) t) p =
          gradOf (opBackward a p) p := by
        refine gradOf_process_frozen t (opBackward a p) hWF1 hl1 p ?_
        intro q hq
        exact (dcoef_of_sameShape hsh q p).symm.trans
          ((List.pairwise_cons.mp hpair).1 q hq)
      have hheadkeep : gradOf (opBackward a p) p = gradOf a p := by
        rw [gradOf_opBackward a hWF hp p, hdiag p (List.mem_cons_self p t)]
        ring
      have hkey : gradOf (process a (p :: t)) p = gradOf a p := by
        calc gradOf (process a (p :: t)) p
            = gradOf (process (opBackward a p) t) p := rfl
          _ = gradOf (opBackward a p) p := hfrozen
          _ = gradOf a p := hheadkeep
      have hIH := ih (opBackward a p) hWF1 (List.Nodup.of_cons hnd) hl1
        hdiag1 hpair1
      have hmap : t.map (fun q => dcoef (opBackward a p) q n *
            gradOf (process (opBackward a p) t) q) =
          t.map (fun q => dcoef a q n * gradOf (process a (p :: t)) q) := by
        refine List.map_congr_left ?_
        intro q _
        rw [← dcoef_of_sameShape hsh q n]
        rfl
      calc gradOf (process a (p :: t)) n
          = gradOf (process (opBackward a p) t) n := rfl
        _ = gradOf (opBackward a p) n +
              (t.map (fun q => dcoef (opBackward a p) q n *
                gradOf (process (opBackward a p) t) q)).sum := hIH
        _ = gradOf a n + dcoef a p n * gradOf a p +
              (t.map (fun q => dcoef a q n *
                gradOf (process a (p :: t)) q)).sum := by
            rw [gradOf_opBackward a hWF hp n, hmap]
        _ = gradOf a n + ((p :: t).map (fun q => dcoef a q n *
              gradOf (process a (p :: t)) q)).sum := by
            rw [List.map_cons, List.sum_cons, hkey]
            ring

/-! ### Reachability -/

theorem reaches_trans {a : Arena} {x y z : Nat} (h1 : Reaches a x y)
    (h2 : Reaches a y z) : Reaches a x z := by
  induction h2 with
  | refl => exact h1
  | step hp hq ih => exact Reaches.step ih hq

theorem reaches_le {a : Arena} (hWF : WF a) {x n : Nat} (hx : x < a.length)
    (h : Reaches a x n) : n ≤ x := by
  induction h with
  | refl => exact le_refl x
  | @step p m hp hq ih =>
      have hpl : p < a.length := lt_of_le_of_lt ih hx
      exact le_trans (le_of_lt (hWF p hpl m hq)) ih

theorem reaches_cases {a : Arena} {root n : Nat} (h : Reaches a root n) :
    n = root ∨ ∃ q ∈ operandsOf (nodeD a root).op, Reaches a q n := by
  induction h with
  | refl => exact Or.inl rfl
  | @step p m hp hq ih =>
      rcases ih with h1 | ⟨q, hq1, hq2⟩
      · subst h1
        exact Or.inr ⟨m, hq, Reaches.refl⟩
      · exact Or.inr ⟨q, hq1, Reaches.step hq2 hq⟩

theorem reaches_of_operand {a : Arena} {root q n : Nat}
    (hq : q ∈ operandsOf (nodeD a root).op) (h : Reaches a q n) :
    Reaches a root n :=
  reaches_trans (Reaches.step Reaches.refl hq) h

/-! ### Consequences of the snoc-shaped topological order -/

theorem topoOrd_closed {a : Arena} {t : List Nat} (h : TopoOrd a t) :
    ∀ p ∈ t, ∀ q ∈ operandsOf (nodeD a p).op, q ∈ t := by
  induction h with
  | nil => intro p hp; exact absurd hp (by simp)
  | @snoc t x ht hops ih =>
      intro p hp q hq
      rcases List.mem_append.mp hp with h1 | h2
      · exact List.mem_append.mpr (Or.inl (ih p h1 q hq))
      · have hx : p = x := by simpa using h2
        subst hx
        exact List.mem_append.mpr (Or.inl (hops q hq))

theorem topoOrd_reach_closed {a : Arena} {t : List Nat} (h : TopoOrd a t)
    {p : Nat} (hp : p ∈ t) {n : Nat} (hr : Reaches a p n) : n ∈ t := by
  induction hr with
  | refl => exact hp
  | step hq hmem ih => exact topoOrd_closed h _ ih _ hmem

theorem append_singleton_split {α : Type} {l d r : List α} {x p : α}
    (h : l ++ [x] = d ++ p :: r) :
    (d = l ∧ p = x ∧ r = []) ∨ ∃ r2, r = r2 ++ [x] ∧ l = d ++ p :: r2 := by
  rcases List.eq_nil_or_concat r with hr | ⟨r2, y, hr⟩
  · subst hr
    have h2 := List.append_inj' h (by simp)
    have h3 : p = x := by
      have := h2.2
      simpa using this.symm
    exact Or.inl ⟨h2.1.symm, h3, rfl⟩
  · subst hr
    simp only [List.concat_eq_append] at h
    have h' : l ++ [x] = (d ++ p :: r2) ++ [y] := by
      simpa using h
    have h2 := List.append_inj' h' (by simp)
    have h3 : x = y := by
      have := h2.2
      simpa using this
    subst h3
    exact Or.inr ⟨r2, by simp, h2.1⟩

theorem topoOrd_splits {a : Arena} {t : List Nat} (h : TopoOrd a t) :
    ∀ d p r, t = d ++ p :: r → ∀ q ∈ operandsOf (nodeD a p).op, q ∈ d := by
  induction h with
  | nil => intro d p r hdr; exact absurd hdr (by simp)
  | @snoc t x ht hops ih =>
      intro d p r hdr q hq
      rcases append_singleton_split hdr with ⟨hd, hp, hr⟩ | ⟨r2, hr, hl⟩
      · subst hd; subst hp
        exact hops q hq
      · exact ih d p r2 hl q hq

theorem topoOrd_no_later_operand {a : Arena} {t : List Nat}
    (h : TopoOrd a t) (hnd : t.Nodup) :
    t.Pairwise (fun q p => p ∉ operandsOf (nodeD a q).op) := by
  induction h with
  | nil => exact List.Pairwise.nil
  | @snoc t x ht hops ih =>
      have hnd' : t.Nodup ∧ x ∉ t := by
        simpa [List.nodup_append] using hnd
      rw [List.pairwise_append]
      refine ⟨ih hnd'.1, by simp, ?_⟩
      intro q hq b hb
      have hbx : b = x := by simpa using hb
      subst hbx
      intro hmem
      exact hnd'.2 (topoOrd_closed ht q hq b hmem)

/-! ### The depth-first search satisfies its specification -/

theorem dfs_spec_one (a : Arena) (hWF : WF a) {id s : Nat}
    {sort visited : List Nat} (hid : id < a.length)
    (hop1 : operandsOf (nodeD a id).op = [s]) (hs' : s < id)
    (hvid : id ∉ visited) (hinv : DfsInv a sort visited)
    (hvs : ∀ n ∈ visited, n ∈ sort ∨ id < n)
    (IHs : ∀ t v, DfsInv a t v → (∀ n ∈ v, n ∈ t ∨ s < n) →
      DfsOut a s t v (dfs a s t v)) :
    DfsOut a id sort visited
      ((dfs a s sort (id :: visited)).1 ++ [id],
       (dfs a s sort (id :: visited)).2) := by
  have hsl : s < a.length := lt_trans hs' hid
  have hidsort : id ∉ sort := fun h => hvid (hinv.subVis id h)
  have hinv1 : DfsInv a sort (id :: visited) :=
    ⟨hinv.nodup, fun n hn => List.mem_cons_of_mem id (hinv.subVis n hn),
     hinv.bounded, hinv.ord⟩
  have hvs1 : ∀ n ∈ id :: visited, n ∈ sort ∨ s < n := by
    intro n hn
    rcases List.mem_cons.mp hn with h1 | h2
    · subst h1; exact Or.inr hs'
    · rcases hvs n h2 with h3 | h4
      · exact Or.inl h3
      · exact Or.inr (lt_trans hs' h4)
  have O1 := IHs sort (id :: visited) hinv1 hvs1
  obtain ⟨d1, hd1⟩ := O1.grow
  have hsub1 : ∀ m ∈ sort, m ∈ (dfs a s sort (id :: visited)).1 := by
    rw [hd1]; intro m hm; exact List.mem_append.mpr (Or.inl hm)
  have hidr1 : id ∉ (dfs a s sort (id :: visited)).1 := by
    intro hmem
    rcases O1.newReach id hmem with h1 | h2
    · exact hidsort h1
    · exact absurd (reaches_le hWF hsl h2) (not_le.mpr hs')
  have hsmem : s ∈ operandsOf (nodeD a id).op := by rw [hop1]; simp
  refine ⟨⟨d1 ++ [id], by rw [hd1, List.append_assoc]⟩, ?_, ?_, ?_, ?_, ?_, ?_⟩
  · refine ⟨?_, ?_, ?_, ?_⟩
    · simp [List.nodup_append, O1.inv.nodup, hidr1]
    · intro n hn
      rcases List.mem_append.mp hn with h1 | h2
      · exact O1.inv.subVis n h1
      · have he : n = id := by simpa using h2
        rw [he]
        exact O1.visGrow id (List.mem_cons_self id visited)
    · intro n hn
      rcases List.mem_append.mp hn with h1 | h2
      · exact O1.inv.bounded n h1
      · have he : n = id := by simpa using h2
        rw [he]; exact hid
    · refine TopoOrd.snoc O1.inv.ord ?_
      rw [hop1]
      intro q hq
      have : q = s := by simpa using hq
      subst this
      exact O1.memId
  · exact fun n hn => O1.visGrow n (List.mem_cons_of_mem id hn)
  · intro n hn
    rcases O1.visChar n hn with h1 | ⟨h2, h3⟩
    · exact Or.inl (List.mem_append.mpr (Or.inl h1))
    · rcases List.mem_cons.mp h2 with h4 | h5
      · subst h4
        exact Or.inl (List.mem_append.mpr (Or.inr (by simp)))
      · rcases hvs n h5 with h6 | h7
        · exact Or.inl (List.mem_append.mpr (Or.inl (hsub1 n h6)))
        · exact Or.inr ⟨h5, h7⟩
  · exact List.mem_append.mpr (Or.inr (by simp))
  · intro n hn
    rcases List.mem_append.mp hn with h1 | h2
    · rcases O1.newReach n h1 with h3 | h4
      · exact Or.inl h3
      · exact Or.inr (reaches_of_operand hsmem h4)
    · have he : n = id := by simpa using h2
      rw [he]
      exact Or.inr Reaches.refl
  · intro n hr
    rcases reaches_cases hr with h1 | ⟨q, hq1, hq2⟩
    · subst h1
      exact List.mem_append.mpr (Or.inr (by simp))
    · rw [hop1] at hq1
      have : q = s := by simpa using hq1
      subst this
      exact List.mem_append.mpr (Or.inl (O1.complete n hq2))

theorem dfs_spec_two (a : Arena) (hWF : WF a) {id s o : Nat}
    {sort visited : List Nat} (hid : id < a.length)
    (hop2 : operandsOf (nodeD a id).op = [s, o]) (hs' : s < id)
    (ho' : o < id) (hvid : id ∉ visited) (hinv : DfsInv a sort visited)
    (hvs : ∀ n ∈ visited, n ∈ sort ∨ id < n)
    (IHs : ∀ t v, DfsInv a t v → (∀ n ∈ v, n ∈ t ∨ s < n) →
      DfsOut a s t v (dfs a s t v))
    (IHo : ∀ t v, DfsInv a t v → (∀ n ∈ v, n ∈ t ∨ o < n) →
      DfsOut a o t v (dfs a o t v)) :
    DfsOut a id sort visited
      ((dfs a o (dfs a s sort (id :: visited)).1
          (dfs a s sort (id :: visited)).2).1 ++ [id],
       (dfs a o (dfs a s sort (id :: visited)).1
          (dfs a s sort (id :: visited)).2).2) := by
  have hsl : s < a.length := lt_trans hs' hid
  have hol : o < a.length := lt_trans ho' hid
  have hidsort : id ∉ sort := fun h => hvid (hinv.subVis id h)
  have hinv1 : DfsInv a sort (id :: visited) :=
    ⟨hinv.nodup, fun n hn => List.mem_cons_of_mem id (hinv.subVis n hn),
     hinv.bounded, hinv.ord⟩
  have hvs1 : ∀ n ∈ id :: visited, n ∈ sort ∨ s < n := by
    intro n hn
    rcases List.mem_cons.mp hn with h1 | h2
    · subst h1; exact Or.inr hs'
    · rcases hvs n h2 with h3 | h4
      · exact Or.inl h3
      · exact Or.inr (lt_trans hs' h4)
  have O1 := IHs sort (id :: visited) hinv1 hvs1
  obtain ⟨d1, hd1⟩ := O1.grow
  have hsub1 : ∀ m ∈ sort, m ∈ (dfs a s sort (id :: visited)).1 := by
    rw [hd1]; intro m hm; exact List.mem_append.mpr (Or.inl hm)
  have hvso : ∀ n ∈ (dfs a s sort (id :: visited)).2,
      n ∈ (dfs a s sort (id :: visited)).1 ∨ o < n := by
    intro n hn
    rcases O1.visChar n hn with h1 | ⟨h2, h3⟩
    · exact Or.inl h1
    · rcases List.mem_cons.mp h2 with h4 | h5
      · subst h4; exact Or.inr ho'
      · rcases hvs n h5 with h6 | h7
        · exact Or.inl (hsub1 n h6)
        · exact Or.inr (lt_trans ho' h7)
  have O2 := IHo (dfs a s sort (id :: visited)).1
    (dfs a s sort (id :: visited)).2 O1.inv hvso
  obtain ⟨d2, hd2⟩ := O2.grow
  have hsub2 : ∀ m ∈ (dfs a s sort (id :: visited)).1,
      m ∈ (dfs a o (dfs a s sort (id :: visited)).1
        (dfs a s sort (id :: visited)).2).1 := by
    rw [hd2]; intro m hm; exact List.mem_append.mpr (Or.inl hm)
  have hidr2 : id ∉ (dfs a o (dfs a s sort (id :: visited)).1
      (dfs a s sort (id :: visited)).2).1 := by
    intro hmem
    rcases O2.newReach id hmem with h1 | h2
    · rcases O1.newReach id h1 with h3 | h4
      · exact hidsort h3
      · exact absurd (reaches_le hWF hsl h4) (not_le.mpr hs')
    · exact absurd (reaches_le hWF hol h2) (not_le.mpr ho')
  have hsmem : s ∈ operandsOf (nodeD a id).op := by rw [hop2]; simp
  have homem : o ∈ operandsOf (nodeD a id).op := by rw [hop2]; simp
  refine ⟨⟨d1 ++ (d2 ++ [id]), ?_⟩, ?_, ?_, ?_, ?_, ?_, ?_⟩
  · rw [hd2, hd1]; simp [List.append_assoc]
  · refine ⟨?_, ?_, ?_, ?_⟩
    · simp [List.nodup_append, O2.inv.nodup, hidr2]
    · intro n hn
      rcases List.mem_append.mp hn with h1 | h2
      · exact O2.inv.subVis n h1
      · have he : n = id := by simpa using h2
        rw [he]
        exact O2.visGrow id (O1.visGrow id (List.mem_cons_self id visited))
    · intro n hn
      rcases List.mem_append.mp hn with h1 | h2
      · exact O2.inv.bounded n h1
      · have he : n = id := by simpa using h2
        rw [he]; exact hid
    · refine TopoOrd.snoc O2.inv.ord ?_
      rw [hop2]
      intro q hq
      rcases by simpa using hq with h1 | h2
      · rw [h1]; exact hsub2 s O1.memId
      · rw [h2]; exact O2.memId
  · exact fun n hn =>
      O2.visGrow n (O1.visGrow n (List.mem_cons_of_mem id hn))
  · intro n hn
    rcases O2.visChar n hn with h1 | ⟨h2, h3⟩
    · exact Or.inl (List.mem_append.mpr (Or.inl h1))
    · rcases O1.visChar n h2 with h4 | ⟨h5, h6⟩
      · exact Or.inl (List.mem_append.mpr (Or.inl (hsub2 n h4)))
      · rcases List.mem_cons.mp h5 with h7 | h8
        · subst h7
          exact Or.inl (List.mem_append.mpr (Or.inr (by simp)))
        · rcases hvs n h8 with h9 | h10
          · exact Or.inl
              (List.mem_append.mpr (Or.inl (hsub2 n (hsub1 n h9))))
          · exact Or.inr ⟨h8, h10⟩
  · exact List.mem_append.mpr (Or.inr (by simp))
  · intro n hn
    rcases List.mem_append.mp hn with h1 | h2
    · rcases O2.newReach n h1 with h3 | h4
      · rcases O1.newReach n h3 with h5 | h6
        · exact Or.inl h5
        · exact Or.inr (reaches_of_operand hsmem h6)
      · exact Or.inr (reaches_of_operand homem h4)
    · have he : n = id := by simpa using h2
      rw [he]
      exact Or.inr Reaches.refl
  · intro n hr
    rcases reaches_cases hr with h1 | ⟨q, hq1, hq2⟩
    · subst h1
      exact List.mem_append.mpr (Or.inr (by simp))
    · rw [hop2] at hq1
      rcases by simpa using hq1 with h1 | h2
      · rw [h1] at hq2
        exact List.mem_append.mpr (Or.inl (hsub2 n (O1.complete n hq2)))
      · rw [h2] at hq2
        exact List.mem_append.mpr (Or.inl (O2.complete n hq2))

theorem dfs_spec (a : Arena) (hWF : WF a) :
    ∀ id, id < a.length → ∀ sort visited, DfsInv a sort visited →
      (∀ n ∈ visited, n ∈ sort ∨ id < n) →
      DfsOut a id sort visited (dfs a id sort visited) := by
  intro id
  induction id using Nat.strong_induction_on with
  | _ id IH =>
    intro hid sort visited hinv hvs
    by_cases hv : id ∈ visited
    · rw [dfs, if_pos hv]
      have hmem : id ∈ sort := by
        rcases hvs id hv with h | h
        · exact h
        · exact absurd h (lt_irrefl id)
      exact ⟨⟨[], by simp⟩, hinv, fun n hn => hn,
        fun n hn => (hvs n hn).elim Or.inl (fun h => Or.inr ⟨hn, h⟩),
        hmem, fun n hn => Or.inl hn,
        fun n hr => topoOrd_reach_closed hinv.ord hmem hr⟩
    · rw [dfs, if_neg hv]
      have hops := hWF id hid
      rcases hm : (nodeD a id).op with _ | ⟨s, o⟩ | ⟨s, o⟩ | ⟨s, k⟩ | s <;>
        simp only [hm]
      · -- leaf
        refine ⟨⟨[id], rfl⟩, ⟨?_, ?_, ?_, ?_⟩, ?_, ?_, ?_, ?_, ?_⟩
        · have hidsort : id ∉ sort := fun h => hv (hinv.subVis id h)
          simp [List.nodup_append, hinv.nodup, hidsort]
        · intro n hn
          rcases List.mem_append.mp hn with h1 | h2
          · exact List.mem_cons_of_mem id (hinv.subVis n h1)
          · have he : n = id := by simpa using h2
            rw [he]; exact List.mem_cons_self id visited
        · intro n hn
          rcases List.mem_append.mp hn with h1 | h2
          · exact hinv.bounded n h1
          · have he : n = id := by simpa using h2
            rw [he]; exact hid
        · refine TopoOrd.snoc hinv.ord ?_
          rw [hm]
          intro q hq
          exact absurd hq (by simp [operandsOf])
        · exact fun n hn => List.mem_cons_of_mem id hn
        · intro n hn
          rcases List.mem_cons.mp hn with h1 | h2
          · exact Or.inl (List.mem_append.mpr (Or.inr (by simp [h1])))
          · rcases hvs n h2 with h3 | h4
            · exact Or.inl (List.mem_append.mpr (Or.inl h3))
            · exact Or.inr ⟨h2, h4⟩
        · exact List.mem_append.mpr (Or.inr (by simp))
        · intro n hn
          rcases List.mem_append.mp hn with h1 | h2
          · exact Or.inl h1
          · have he : n = id := by simpa using h2
            rw [he]; exact Or.inr Reaches.refl
        · intro n hr
          rcases reaches_cases hr with h1 | ⟨q, hq1, hq2⟩
          · rw [h1]; exact List.mem_append.mpr (Or.inr (by simp))
          · rw [hm] at hq1
            exact absurd hq1 (by simp [operandsOf])
      · -- add
        have hs' : s < id := hops s (by rw [hm]; simp [operandsOf])
        have ho' : o < id := hops o (by rw [hm]; simp [operandsOf])
        rw [dif_pos hs', dif_pos ho']
        exact dfs_spec_two a hWF hid (by rw [hm]; rfl) hs' ho' hv hinv hvs
          (fun t v hi hv2 => IH s hs' (lt_trans hs' hid) t v hi hv2)
          (fun t v hi hv2 => IH o ho' (lt_trans ho' hid) t v hi hv2)
      · -- mul
        have hs' : s < id := hops s (by rw [hm]; simp [operandsOf])
        have ho' : o < id := hops o (by rw [hm]; simp [operandsOf])
        rw [dif_pos hs', dif_pos ho']
        exact dfs_spec_two a hWF hid (by rw [hm]; rfl) hs' ho' hv hinv hvs
          (fun t v hi hv2 => IH s hs' (lt_trans hs' hid) t v hi hv2)
          (fun t v hi hv2 => IH o ho' (lt_trans ho' hid) t v hi hv2)
      · -- pow
        have hs' : s < id := hops s (by rw [hm]; simp [operandsOf])
        rw [dif_pos hs']
        exact dfs_spec_one a hWF hid (by rw [hm]; rfl) hs' hv hinv hvs
          (fun t v hi hv2 => IH s hs' (lt_trans hs' hid) t v hi hv2)
      · -- relu
        have hs' : s < id := hops s (by rw [hm]; simp [operandsOf])
        rw [dif_pos hs']
        exact dfs_spec_one a hWF hid (by rw [hm]; rfl) hs' hv hinv hvs
          (fun t v hi hv2 => IH s hs' (lt_trans hs' hid) t v hi hv2)

/-- The combined specification of `Scalar::topo`: no duplicates, membership
is exactly reachability from the root, the list is operand-closed in snoc
order, and every listed index is in range. -/
theorem topo_spec (a : Arena) (hWF : WF a) (root : Nat)
    (hroot : root < a.length) :
    (topo a root).Nodup ∧ (∀ n, n ∈ topo a root ↔ Reaches a root n) ∧
      TopoOrd a (topo a root) ∧ ∀ n ∈ topo a root, n < a.length := by
  have O := dfs_spec a hWF root hroot [] []
    ⟨List.nodup_nil, by simp, by simp, TopoOrd.nil⟩ (by simp)
  refine ⟨O.inv.nodup, fun n => ⟨?_, fun hr => O.complete n hr⟩,
    O.inv.ord, O.inv.bounded⟩
  intro hn
  rcases O.newReach n hn with h1 | h2
  · exact absurd h1 (by simp)
  · exact h2

/-! ### Graphs built through the public surface -/

theorem nodeD_oob (a : Arena) (n : Nat) (h : a.length <= n) :
    nodeD a n = default :=
  List.getD_eq_default a default h

theorem default_grad_zero : (default : ScalarData).grad = 0 := rfl

theorem snd_scalar (a : Arena) (v : ℚ) : (scalar a v).2 = a.length := by
  simp [scalar, push]

theorem fst_scalar (a : Arena) (v : ℚ) :
    (scalar a v).1 = a ++ [{ data := v, grad := 0, op := Op.none }] := rfl

theorem wf_push {a : Arena} (hWF : WF a) (d : ScalarData)
    (hd : ∀ q ∈ operandsOf d.op, q < a.length) : WF (a ++ [d]) := by
  intro i hi q hq
  rw [List.length_append, List.length_singleton] at hi
  by_cases hi2 : i < a.length
  · rw [nodeD_append_lt a [d] i hi2] at hq
    exact hWF i hi2 q hq
  · have he : i = a.length := by omega
    rw [he] at hq ⊢
    rw [nodeD_append_self a d] at hq
    exact hd q hq

theorem grad_zero_push {a : Arena} (h : ∀ n, (nodeD a n).grad = 0)
    (d : ScalarData) (hd : d.grad = 0) :
    ∀ n, (nodeD (a ++ [d]) n).grad = 0 := by
  intro n
  by_cases h1 : n < a.length
  · rw [nodeD_append_lt a [d] n h1]; exact h n
  · by_cases h2 : n = a.length
    · rw [h2, nodeD_append_self a d]; exact hd
    · have h3 : (a ++ [d]).length <= n := by
        rw [List.length_append, List.length_singleton]; omega
      rw [nodeD_oob _ n h3]
      exact default_grad_zero

theorem wf_of_built {a : Arena} (hB : Built a) : WF a := by
  induction hB with
  | nil => intro i hi; simp at hi
  | scalar v hB ih =>
      exact wf_push ih _ (fun q hq => absurd hq (by simp [operandsOf]))
  | @addS b x y hB hx hy ih =>
      refine wf_push ih _ ?_
      intro q hq
      simp [operandsOf] at hq
      rcases hq with h | h <;> rw [h]
      · exact hx
      · exact hy
  | @mulS b x y hB hx hy ih =>
      refine wf_push ih _ ?_
      intro q hq
      simp [operandsOf] at hq
      rcases hq with h | h <;> rw [h]
      · exact hx
      · exact hy
  | @powS b x k hB hx ih =>
      refine wf_push ih _ ?_
      intro q hq
      simp [operandsOf] at hq
      rw [hq]; exact hx
  | @reluS b x hB hx ih =>
      refine wf_push ih _ ?_
      intro q hq
      simp [operandsOf] at hq
      rw [hq]; exact hx
  | @addF b x c hB hx ih =>
      refine wf_push (wf_push ih _ (fun q hq => absurd hq (by simp [operandsOf]))) _ ?_
      intro q hq
      simp [operandsOf, snd_scalar] at hq
      simp only [List.length_append, List.length_singleton]
      rcases hq with h | h <;> rw [h] <;> omega
  | @fAddS b y c hB hy ih =>
      refine wf_push (wf_push ih _ (fun q hq => absurd hq (by simp [operandsOf]))) _ ?_
      intro q hq
      simp [operandsOf, snd_scalar] at hq
      simp only [List.length_append, List.length_singleton]
      rcases hq with h | h <;> rw [h] <;> omega
  | @mulF b x c hB hx ih =>
      refine wf_push (wf_push ih _ (fun q hq => absurd hq (by simp [operandsOf]))) _ ?_
      intro q hq
      simp [operandsOf, snd_scalar] at hq
      simp only [List.length_append, List.length_singleton]
      rcases hq with h | h <;> rw [h] <;> omega
  | @fMulS b y c hB hy ih =>
      refine wf_push (wf_push ih _ (fun q hq => absurd hq (by simp [operandsOf]))) _ ?_
      intro q hq
      simp [operandsOf, snd_scalar] at hq
      simp only [List.length_append, List.length_singleton]
      rcases hq with h | h <;> rw [h] <;> omega

theorem grads_zero_of_built {a : Arena} (hB : Built a) :
    ∀ n, (nodeD a n).grad = 0 := by
  induction hB with
  | nil =>
      intro n
      rw [nodeD_oob [] n (by simp)]
      exact default_grad_zero
  | scalar v hB ih => exact grad_zero_push ih _ rfl
  | addS hB hx hy ih => exact grad_zero_push ih _ rfl
  | mulS hB hx hy ih => exact grad_zero_push ih _ rfl
  | powS k hB hx ih => exact grad_zero_push ih _ rfl
  | reluS hB hx ih => exact grad_zero_push ih _ rfl
  | addF c hB hx ih => exact grad_zero_push (grad_zero_push ih _ rfl) _ rfl
  | fAddS c hB hy ih => exact grad_zero_push (grad_zero_push ih _ rfl) _ rfl
  | mulF c hB hx ih => exact grad_zero_push (grad_zero_push ih _ rfl) _ rfl
  | fMulS c hB hy ih => exact grad_zero_push (grad_zero_push ih _ rfl) _ rfl

/-! ### The backward pass: characterization and frame -/

theorem backward_eq_process (a : Arena) (root : Nat) :
    backward a root = process (setGrad a root 1) (topo a root).reverse := rfl

theorem backward_char (a : Arena) (hWF : WF a) (root : Nat)
    (hroot : root < a.length) (n : Nat) :
    gradOf (backward a root) n =
      gradOf (setGrad a root 1) n +
        ((topo a root).map
          (fun p => dcoef a p n * gradOf (backward a root) p)).sum := by
  obtain ⟨hnd, hmem, hord, hbd⟩ := topo_spec a hWF root hroot
  have hsh : SameShape a (setGrad a root 1) := sameShape_setGrad a root 1
  have hWF0 : WF (setGrad a root 1) := wf_of_sameShape hsh hWF
  have hbd' : ∀ q ∈ (topo a root).reverse, q < (setGrad a root 1).length := by
    intro q hq
    rw [length_setGrad]
    exact hbd q (List.mem_reverse.mp hq)
  have hdiag : ∀ q ∈ (topo a root).reverse, dcoef (setGrad a root 1) q q = 0 := by
    intro q hq
    rw [← dcoef_of_sameShape hsh q q]
    refine dcoef_eq_zero a q q ?_
    intro hself
    exact absurd (hWF q (hbd q (List.mem_reverse.mp hq)) q hself)
      (lt_irrefl q)
  have hpair : (topo a root).reverse.Pairwise
      (fun q r => dcoef (setGrad a root 1) r q = 0) := by
    rw [List.pairwise_reverse]
    refine (topoOrd_no_later_operand hord hnd).imp ?_
    intro q r hqr
    rw [← dcoef_of_sameShape hsh q r]
    exact dcoef_eq_zero a q r hqr
  have H := gradOf_process_sum (topo a root).reverse (setGrad a root 1) hWF0
    (List.nodup_reverse.mpr hnd) hbd' hdiag hpair n
  rw [backward_eq_process]
  rw [H]
  congr 1
  rw [List.map_reverse, List.sum_reverse]
  refine congrArg List.sum (List.map_congr_left ?_)
  intro q _
  rw [← dcoef_of_sameShape hsh q n]

/-- C5: a backward pass mutates only gradient fields, and only those of
nodes reachable from the root; values and operation tags are never
modified, and nodes not reachable from the root keep their gradients. -/
theorem backward_frame (a : Arena) (root : Nat) (hWF : WF a)
    (hroot : root < a.length) :
    (∀ n, (nodeD (backward a root) n).data = (nodeD a n).data ∧
       (nodeD (backward a root) n).op = (nodeD a n).op) ∧
    (∀ n, ¬Reaches a root n →
       gradOf (backward a root) n = gradOf a n) := by
  obtain ⟨hnd, hmem, hord, hbd⟩ := topo_spec a hWF root hroot
  have hsh : SameShape a (setGrad a root 1) := sameShape_setGrad a root 1
  have hsh2 : SameShape a (backward a root) := by
    rw [backward_eq_process]
    exact sameShape_trans hsh (sameShape_process _ _)
  constructor
  · exact fun n => ⟨((hsh2.2 n).1).symm, ((hsh2.2 n).2).symm⟩
  · intro n hn
    have hWF0 : WF (setGrad a root 1) := wf_of_sameShape hsh hWF
    have hfroz : ∀ q ∈ (topo a root).reverse,
        dcoef (setGrad a root 1) q n = 0 := by
      intro q hq
      rw [← dcoef_of_sameShape hsh q n]
      refine dcoef_eq_zero a q n ?_
      intro hopnd
      exact hn (Reaches.step ((hmem q).mp (List.mem_reverse.mp hq)) hopnd)
    have hbd' : ∀ q ∈ (topo a root).reverse,
        q < (setGrad a root 1).length := by
      intro q hq
      rw [length_setGrad]
      exact hbd q (List.mem_reverse.mp hq)
    rw [backward_eq_process,
      gradOf_process_frozen (topo a root).reverse (setGrad a root 1) hWF0
        hbd' n hfroz, gradOf_setGrad]
    have hnr : n ≠ root := fun he => hn (he ▸ Reaches.refl)
    simp [hnr]

/-- C10: after a backward pass, the root's gradient is exactly 1: the
seeding step overwrites it and no processed node can write back into the
root, since every node reachable from the root has an index at most the
root's and operand edges point strictly downward. -/
theorem backward_root_grad_one (a : Arena) (root : Nat) (hWF : WF a)
    (hroot : root < a.length) : gradOf (backward a root) root = 1 := by
  obtain ⟨hnd, hmem, hord, hbd⟩ := topo_spec a hWF root hroot
  have hsh : SameShape a (setGrad a root 1) := sameShape_setGrad a root 1
  have hWF0 : WF (setGrad a root 1) := wf_of_sameShape hsh hWF
  have hfroz : ∀ q ∈ (topo a root).reverse,
      dcoef (setGrad a root 1) q root = 0 := by
    intro q hq
    rw [← dcoef_of_sameShape hsh q root]
    refine dcoef_eq_zero a q root ?_
    intro hopnd
    have hqr : q ≤ root :=
      reaches_le hWF hroot ((hmem q).mp (List.mem_reverse.mp hq))
    have hql : q < a.length := hbd q (List.mem_reverse.mp hq)
    exact absurd (hWF q hql root hopnd) (not_lt.mpr hqr)
  have hbd' : ∀ q ∈ (topo a root).reverse,
      q < (setGrad a root 1).length := by
    intro q hq
    rw [length_setGrad]
    exact hbd q (List.mem_reverse.mp hq)
  rw [backward_eq_process,
    gradOf_process_frozen (topo a root).reverse (setGrad a root 1) hWF0
      hbd' root hfroz, gradOf_setGrad]
  simp [hroot]

/-- C2: during one backward pass every node reachable from the root enters
the topological order exactly once (no duplicates, membership equals
reachability), the local rule is applied once per entry of that order, and
each node's final gradient is the seed (1 at the root, 0 elsewhere on a
freshly built graph) plus the sum, over every node of the order that holds
it as an operand, of that parent's final gradient times the local
derivative of the edge - the multi-path chain-rule sum, with one addend
per edge and path, never an overwrite. -/
theorem backward_visits_once_and_accumulates (a : Arena) (root : Nat)
    (hB : Built a) (hroot : root < a.length) :
    (topo a root).Nodup ∧
    (∀ n, n ∈ topo a root ↔ Reaches a root n) ∧
    (∀ n, n < a.length →
      gradOf (backward a root) n =
        (if n = root then 1 else 0) +
          ((topo a root).map
            (fun p => dcoef a p n * gradOf (backward a root) p)).sum) := by
  have hWF := wf_of_built hB
  obtain ⟨hnd, hmem, hord, hbd⟩ := topo_spec a hWF root hroot
  refine ⟨hnd, hmem, ?_⟩
  intro n hn
  rw [backward_char a hWF root hroot n, gradOf_setGrad]
  have hz : gradOf a n = 0 := grads_zero_of_built hB n
  by_cases he : n = root
  · simp [he, hroot]
  · simp [he, hz]

/-! ### Claim theorems on the arena and construction -/

/-- C7, counterexample: pushing onto the empty arena returns index 0,
the pre-append length, not the pre-append length plus one. -/
theorem push_index_not_succ_counterexample :
    (push ([] : Arena) default).2 ≠ ([] : Arena).length + 1 := by
  simp [push]

/-- C7, amended: `push` appends the record and returns as the stable index
the arena's length before the append (the new record's position, one less
than the new length). -/
theorem push_appends_and_returns_position (a : Arena) (d : ScalarData) :
    (push a d).1 = a ++ [d] ∧ (push a d).2 = a.length := by
  refine ⟨rfl, ?_⟩
  simp [push]

/-- C8: reading or writing any index at or beyond the arena length faults
(returns no record), and any index below the length succeeds. -/
theorem arena_access_bounds (a : Arena) (id : Nat) (d : ScalarData) :
    (a.length ≤ id →
      node? a id = Option.none ∧ trySetNode a id d = Option.none) ∧
    (id < a.length →
      (node? a id).isSome ∧ (trySetNode a id d).isSome) := by
  constructor
  · intro h
    constructor
    · exact List.get?_eq_none.mpr h
    · simp [trySetNode, not_lt.mpr h]
  · intro h
    constructor
    · show (a.get? id).isSome
      rw [List.get?_eq_get h]
      rfl
    · simp [trySetNode, h]

/-- C8 witness at a one-node arena: index 5 faults on read and write,
index 0 succeeds on read and write. -/
theorem arena_access_bounds_witness :
    (node? ([{ data := 1, grad := 0, op := Op.none }] : Arena) 5 =
        Option.none ∧
      trySetNode ([{ data := 1, grad := 0, op := Op.none }] : Arena) 5
        default = Option.none) ∧
    ((node? ([{ data := 1, grad := 0, op := Op.none }] : Arena) 0).isSome ∧
      (trySetNode ([{ data := 1, grad := 0, op := Op.none }] : Arena) 0
        default).isSome) :=
  ⟨(arena_access_bounds _ 5 default).1 (by simp),
   (arena_access_bounds _ 0 default).2 (by simp)⟩

/-- C6: every node carries gradient 0 immediately after creation and keeps
it through any further node-minting, for every graph built through the
public surface (leaf creation and all operator and activation calls). -/
theorem created_gradients_zero (a : Arena) (hB : Built a) :
    ∀ n, gradOf a n = 0 :=
  fun n => grads_zero_of_built hB n

/-- C3: on every graph built through the public operator surface and for
every root handle, the computed topological order lists each reachable
node exactly once (the traversal terminates by construction: it is a total
function), and at every decomposition of the order the operands of the
node at that position all occur strictly earlier. -/
theorem topo_operands_first (a : Arena) (root : Nat) (hB : Built a)
    (hroot : root < a.length) :
    (topo a root).Nodup ∧
    (∀ n, n ∈ topo a root ↔ Reaches a root n) ∧
    (∀ d p r, topo a root = d ++ p :: r →
      ∀ q ∈ operandsOf (nodeD a p).op, q ∈ d) := by
  have hWF := wf_of_built hB
  obtain ⟨hnd, hmem, hord, hbd⟩ := topo_spec a hWF root hroot
  exact ⟨hnd, hmem, fun d p r hdr => topoOrd_splits hord d p r hdr⟩

/-- C1: the composite expression a = 1.5, b = -4.0, c = a.pow(3.0)/5.0,
d = relu(b.pow(2.0)) + c evaluates to value(d) = 16.675 and, after a
backward pass from d, grad(a) = 1.35 and grad(b) = -8.0. -/
theorem composite_backward_values :
    dataOf buildC1.1 buildC1.2.2.2 = 16.675 ∧
    gradOf (backward buildC1.1 buildC1.2.2.2) buildC1.2.1 = 1.35 ∧
    gradOf (backward buildC1.1 buildC1.2.2.2) buildC1.2.2.1 = -8.0 := by
  refine ⟨?_, ?_, ?_⟩ <;>
    norm_num [buildC1, scalar, push, powS, divF, mulF, reluS, addS, scalarOp,
      dataOf, gradOf, nodeD, fpow, backward, topo, dfs, setGrad, addGrad,
      opBackward, operandsOf]

/-- C2 witness: the accumulation characterization applied to the concrete
graph a = 3, b = 4, c = a + b with root c. -/
theorem backward_visits_once_and_accumulates_witness :
    (topo (addS (scalar (scalar [] 3).1 4).1 0 1).1 2).Nodup ∧
    (∀ n, n ∈ topo (addS (scalar (scalar [] 3).1 4).1 0 1).1 2 ↔
      Reaches (addS (scalar (scalar [] 3).1 4).1 0 1).1 2 n) ∧
    (∀ n, n < (addS (scalar (scalar [] 3).1 4).1 0 1).1.length →
      gradOf (backward (addS (scalar (scalar [] 3).1 4).1 0 1).1 2) n =
        (if n = 2 then 1 else 0) +
          ((topo (addS (scalar (scalar [] 3).1 4).1 0 1).1 2).map
            (fun p => dcoef (addS (scalar (scalar [] 3).1 4).1 0 1).1 p n *
              gradOf (backward (addS (scalar (scalar [] 3).1 4).1 0 1).1 2)
                p)).sum) :=
  backward_visits_once_and_accumulates _ 2
    (Built.addS (Built.scalar 4 (Built.scalar 3 Built.nil)) (by decide)
      (by decide))
    (by decide)

/-- C3 witness: the topological-order properties applied to the concrete
graph a = 3, b = 4, c = a + b with root c. -/
theorem topo_operands_first_witness :
    (topo (addS (scalar (scalar [] 3).1 4).1 0 1).1 2).Nodup ∧
    (∀ n, n ∈ topo (addS (scalar (scalar [] 3).1 4).1 0 1).1 2 ↔
      Reaches (addS (scalar (scalar [] 3).1 4).1 0 1).1 2 n) ∧
    (∀ d p r, topo (addS (scalar (scalar [] 3).1 4).1 0 1).1 2 =
        d ++ p :: r →
      ∀ q ∈ operandsOf (nodeD (addS (scalar (scalar [] 3).1 4).1 0 1).1
        p).op, q ∈ d) :=
  topo_operands_first _ 2
    (Built.addS (Built.scalar 4 (Built.scalar 3 Built.nil)) (by decide)
      (by decide))
    (by decide)

/-- C5 witness: the frame property applied to the concrete graph a = 3,
b = 4, c = a + b with root c. -/
theorem backward_frame_witness :
    (∀ n, (nodeD (backward (addS (scalar (scalar [] 3).1 4).1 0 1).1 2)
        n).data = (nodeD (addS (scalar (scalar [] 3).1 4).1 0 1).1 n).data ∧
      (nodeD (backward (addS (scalar (scalar [] 3).1 4).1 0 1).1 2) n).op =
        (nodeD (addS (scalar (scalar [] 3).1 4).1 0 1).1 n).op) ∧
    (∀ n, ¬Reaches (addS (scalar (scalar [] 3).1 4).1 0 1).1 2 n →
      gradOf (backward (addS (scalar (scalar [] 3).1 4).1 0 1).1 2) n =
        gradOf (addS (scalar (scalar [] 3).1 4).1 0 1).1 n) :=
  backward_frame _ 2 (by decide) (by decide)

/-- C6 witness: the gradients of the leaf node 0 and the freshly minted sum
node 2 are zero on the concrete graph a = 3, b = 4, c = a + b. -/
theorem created_gradients_zero_witness :
    gradOf (addS (scalar (scalar [] 3).1 4).1 0 1).1 0 = 0 ∧
    gradOf (addS (scalar (scalar [] 3).1 4).1 0 1).1 2 = 0 :=
  ⟨created_gradients_zero _
    (Built.addS (Built.scalar 4 (Built.scalar 3 Built.nil)) (by decide)
      (by decide)) 0,
   created_gradients_zero _
    (Built.addS (Built.scalar 4 (Built.scalar 3 Built.nil)) (by decide)
      (by decide)) 2⟩

/-- C10 witness: the root gradient is exactly 1 after backward on the
concrete graph a = 3, b = 4, c = a + b with root c. -/
theorem backward_root_grad_one_witness :
    gradOf (backward (addS (scalar (scalar [] 3).1 4).1 0 1).1 2) 2 = 1 :=
  backward_root_grad_one _ 2 (by decide) (by decide)

/-! ### Uniqueness of the gradient fixed point and operand-order swaps -/

theorem grads_unique (len : Nat) (R : Finset Nat) (c : Nat → Nat → ℚ)
    (init G1 G2 : Nat → ℚ)
    (hR : ∀ p ∈ R, p < len)
    (hc : ∀ p n, c p n ≠ 0 → n < p)
    (h1 : ∀ n, n < len → G1 n = init n + R.sum (fun p => c p n * G1 p))
    (h2 : ∀ n, n < len → G2 n = init n + R.sum (fun p => c p n * G2 p)) :
    ∀ n, n < len → G1 n = G2 n := by
  have key : ∀ k n, len - n ≤ k → n < len → G1 n = G2 n := by
    intro k
    induction k with
    | zero => intro n hk hn; omega
    | succ k ih =>
        intro n hk hn
        rw [h1 n hn, h2 n hn]
        congr 1
        refine Finset.sum_congr rfl ?_
        intro p hp
        by_cases hc0 : c p n = 0
        · rw [hc0]; ring
        · have hnp : n < p := hc p n hc0
          have hpl : p < len := hR p hp
          rw [ih p (by omega) hpl]
  intro n hn
  exact key (len - n) n (le_refl _) hn

theorem dcoef_support (a : Arena) (hWF : WF a) (p n : Nat)
    (h : dcoef a p n ≠ 0) : n < p := by
  by_cases hp : p < a.length
  · by_cases hm : n ∈ operandsOf (nodeD a p).op
    · exact hWF p hp n hm
    · exact absurd (dcoef_eq_zero a p n hm) h
  · exfalso
    apply h
    unfold dcoef
    rw [nodeD_oob a p (le_of_not_lt hp)]

theorem gradOf_oob (a : Arena) (n : Nat) (h : a.length ≤ n) :
    gradOf a n = 0 := by
  unfold gradOf
  rw [nodeD_oob a n h]
  exact default_grad_zero

theorem backward_char_finset (a : Arena) (hWF : WF a) (root : Nat)
    (hroot : root < a.length) (n : Nat) :
    gradOf (backward a root) n =
      gradOf (setGrad a root 1) n +
        (topo a root).toFinset.sum
          (fun p => dcoef a p n * gradOf (backward a root) p) := by
  obtain ⟨hnd, hmem, hord, hbd⟩ := topo_spec a hWF root hroot
  rw [backward_char a hWF root hroot n, List.sum_toFinset _ hnd]

theorem reaches_congr {a b : Arena}
    (h : ∀ p q, q ∈ operandsOf (nodeD a p).op ↔
      q ∈ operandsOf (nodeD b p).op)
    {root n : Nat} (hr : Reaches a root n) : Reaches b root n := by
  induction hr with
  | refl => exact Reaches.refl
  | step hp hq ih => exact Reaches.step ih ((h _ _).mp hq)

/-- Two arenas that agree everywhere except that some `Mul` nodes carry
their two operands in swapped order produce identical gradients under a
backward pass from the same root. -/
theorem backward_swap_mul (b1 b2 : Arena) (root : Nat)
    (hWF1 : WF b1) (hWF2 : WF b2)
    (hlen : b1.length = b2.length)
    (hdata : ∀ j, (nodeD b1 j).data = (nodeD b2 j).data)
    (hgrad : ∀ j, (nodeD b1 j).grad = (nodeD b2 j).grad)
    (hop : ∀ j, (nodeD b1 j).op = (nodeD b2 j).op ∨
      ∃ s o, (nodeD b1 j).op = Op.mul s o ∧ (nodeD b2 j).op = Op.mul o s)
    (hroot : root < b1.length) :
    ∀ n, gradOf (backward b1 root) n = gradOf (backward b2 root) n := by
  have hroot2 : root < b2.length := hlen ▸ hroot
  have hmem : ∀ p q, q ∈ operandsOf (nodeD b1 p).op ↔
      q ∈ operandsOf (nodeD b2 p).op := by
    intro p q
    rcases hop p with he | ⟨s, o, h1, h2⟩
    · rw [he]
    · rw [h1, h2]
      simp [operandsOf, or_comm]
  have hdc : ∀ p n, dcoef b1 p n = dcoef b2 p n := by
    intro p n
    unfold dcoef
    rcases hop p with he | ⟨s, o, h1, h2⟩
    · rw [← he]
      rcases hm : (nodeD b1 p).op with _ | ⟨s, o⟩ | ⟨s, o⟩ | ⟨s, k⟩ | s <;>
        dsimp only
      · rw [hdata o, hdata s]
      · rw [hdata s]
      · rw [hdata p]
    · rw [h1, h2]
      dsimp only
      rw [hdata o, hdata s]
      ring
  have hsets : (topo b1 root).toFinset = (topo b2 root).toFinset := by
    obtain ⟨hnd1, hmem1, _, _⟩ := topo_spec b1 hWF1 root hroot
    obtain ⟨hnd2, hmem2, _, _⟩ := topo_spec b2 hWF2 root hroot2
    refine Finset.ext ?_
    intro q
    rw [List.mem_toFinset, List.mem_toFinset, hmem1 q, hmem2 q]
    exact ⟨reaches_congr hmem, reaches_congr (fun p q => (hmem p q).symm)⟩
  have hinit : ∀ n, gradOf (setGrad b1 root 1) n =
      gradOf (setGrad b2 root 1) n := by
    intro n
    rw [gradOf_setGrad, gradOf_setGrad, ← hlen]
    by_cases he : n = root ∧ root < b1.length
    · simp [he.1, he.2]
    · rw [if_neg he, if_neg he]
      exact hgrad n
  have hbd1 : ∀ p ∈ (topo b1 root).toFinset, p < b1.length := by
    obtain ⟨_, _, _, hbd⟩ := topo_spec b1 hWF1 root hroot
    intro p hp
    exact hbd p (List.mem_toFinset.mp hp)
  have hc : ∀ p n, dcoef b1 p n ≠ 0 → n < p :=
    fun p n h => dcoef_support b1 hWF1 p n h
  have heq1 : ∀ n, n < b1.length → gradOf (backward b1 root) n =
      gradOf (setGrad b1 root 1) n +
        (topo b1 root).toFinset.sum
          (fun p => dcoef b1 p n * gradOf (backward b1 root) p) :=
    fun n _ => backward_char_finset b1 hWF1 root hroot n
  have heq2 : ∀ n, n < b1.length → gradOf (backward b2 root) n =
      gradOf (setGrad b1 root 1) n +
        (topo b1 root).toFinset.sum
          (fun p => dcoef b1 p n * gradOf (backward b2 root) p) := by
    intro n _
    rw [backward_char_finset b2 hWF2 root hroot2 n, ← hinit n, hsets]
    congr 1
    refine Finset.sum_congr rfl ?_
    intro p _
    rw [hdc p n]
  have := grads_unique b1.length (topo b1 root).toFinset (dcoef b1)
    (fun n => gradOf (setGrad b1 root 1) n)
    (fun n => gradOf (backward b1 root) n)
    (fun n => gradOf (backward b2 root) n)
    hbd1 hc heq1 heq2
  intro n
  by_cases hn : n < b1.length
  · exact this n hn
  · have hsh1 : SameShape b1 (backward b1 root) := by
      rw [backward_eq_process]
      exact sameShape_trans (sameShape_setGrad b1 root 1)
        (sameShape_process _ _)
    have hsh2 : SameShape b2 (backward b2 root) := by
      rw [backward_eq_process]
      exact sameShape_trans (sameShape_setGrad b2 root 1)
        (sameShape_process _ _)
    rw [gradOf_oob _ n (by rw [← hsh1.1]; omega),
      gradOf_oob _ n (by rw [← hsh2.1, ← hlen]; omega)]

theorem fst_scalarOp (a : Arena) (v : ℚ) (op : Op) :
    (scalarOp a v op).1 = a ++ [{ data := v, grad := 0, op := op }] := rfl

theorem snd_scalarOp (a : Arena) (v : ℚ) (op : Op) :
    (scalarOp a v op).2 = a.length := by
  simp [scalarOp, push]

theorem fMulS_fst (c : ℚ) (a : Arena) (y : Nat) (hy : y < a.length) :
    (fMulS c a y).1 =
      (a ++ [{ data := c, grad := 0, op := Op.none }]) ++
        [{ data := c * dataOf a y, grad := 0,
           op := Op.mul a.length y }] := by
  unfold fMulS
  dsimp only
  rw [fst_scalarOp, snd_scalar, fst_scalar]
  have e1 : dataOf (a ++ [{ data := c, grad := 0, op := Op.none }])
      a.length = c := by
    unfold dataOf
    rw [nodeD_append_self]
  have e2 : dataOf (a ++ [{ data := c, grad := 0, op := Op.none }]) y =
      dataOf a y := by
    unfold dataOf
    rw [nodeD_append_lt a _ y hy]
  rw [e1, e2]

theorem mulF_fst (a : Arena) (x : Nat) (c : ℚ) (hx : x < a.length) :
    (mulF a x c).1 =
      (a ++ [{ data := c, grad := 0, op := Op.none }]) ++
        [{ data := dataOf a x * c, grad := 0,
           op := Op.mul x a.length }] := by
  unfold mulF
  dsimp only
  rw [fst_scalarOp, snd_scalar, fst_scalar]
  have e1 : dataOf (a ++ [{ data := c, grad := 0, op := Op.none }])
      a.length = c := by
    unfold dataOf
    rw [nodeD_append_self]
  have e2 : dataOf (a ++ [{ data := c, grad := 0, op := Op.none }]) x =
      dataOf a x := by
    unfold dataOf
    rw [nodeD_append_lt a _ x hx]
  rw [e1, e2]

theorem nodeD_two_append_cases (a : Arena) (d1 d2 : ScalarData) (j : Nat) :
    nodeD ((a ++ [d1]) ++ [d2]) j =
      if j < a.length then nodeD a j
      else if j = a.length then d1
      else if j = a.length + 1 then d2
      else default := by
  by_cases h1 : j < a.length
  · rw [if_pos h1, nodeD_append_lt _ _ j (by simp; omega),
      nodeD_append_lt a _ j h1]
  · rw [if_neg h1]
    by_cases h2 : j = a.length
    · rw [if_pos h2, h2, nodeD_append_lt _ _ _ (by simp),
        nodeD_append_self]
    · rw [if_neg h2]
      by_cases h3 : j = a.length + 1
      · rw [if_pos h3, h3]
        have e : a.length + 1 = (a ++ [d1]).length := by simp
        rw [e, nodeD_append_self]
      · rw [if_neg h3, nodeD_oob]
        simp
        omega

theorem snd_negS (a : Arena) (x : Nat) :
    (negS a x).2 = a.length + 1 := by
  simp [negS, fMulS, scalarOp, scalar, push]

theorem snd_mulF (a : Arena) (x : Nat) (c : ℚ) :
    (mulF a x c).2 = a.length + 1 := by
  simp [mulF, scalarOp, scalar, push]

/-- C4: the derived operators are the stated compositions of the tier-1
primitives.  Subtraction, the mixed-constant forms and division are the
compositions definitionally (the source defines them that way, constants
being minted as leaves by the binary wrappers); negation `-x` (defined as
`-1.0 * x`, whose node is `Mul(leaf, x)`) produces the same handle, the
same forward value and the same gradients after backward as `x * (-1.0)`
(whose node is `Mul(x, leaf)`). -/
theorem derived_ops_equiv (a : Arena) (x y : Nat) (c : ℚ) (hWF : WF a)
    (hx : x < a.length) :
    subS a x y = addS (negS a y).1 x (negS a y).2 ∧
    divS a x y = mulS (powS a y (-1)).1 x (powS a y (-1)).2 ∧
    subF a x c = addF a x (-c) ∧
    fSubS c a y = fAddS c (negS a y).1 (negS a y).2 ∧
    divF a x c = mulF a x (fpow c (-1)) ∧
    fDivS c a y = fMulS c (powS a y (-1)).1 (powS a y (-1)).2 ∧
    (negS a x).2 = (mulF a x (-1)).2 ∧
    dataOf (negS a x).1 (negS a x).2 =
      dataOf (mulF a x (-1)).1 (mulF a x (-1)).2 ∧
    (∀ n, gradOf (backward (negS a x).1 (negS a x).2) n =
      gradOf (backward (mulF a x (-1)).1 (mulF a x (-1)).2) n) := by
  have h1 : (negS a x).1 =
      (a ++ [{ data := -1, grad := 0, op := Op.none }]) ++
        [{ data := -1 * dataOf a x, grad := 0,
           op := Op.mul a.length x }] := fMulS_fst (-1) a x hx
  have h2 : (mulF a x (-1)).1 =
      (a ++ [{ data := -1, grad := 0, op := Op.none }]) ++
        [{ data := dataOf a x * -1, grad := 0,
           op := Op.mul x a.length }] := mulF_fst a x (-1) hx
  have hlen1 : (negS a x).1.length = a.length + 2 := by rw [h1]; simp
  have hlen2 : (mulF a x (-1)).1.length = a.length + 2 := by rw [h2]; simp
  have hWF1 : WF (negS a x).1 := by
    rw [h1]
    refine wf_push (wf_push hWF _ ?_) _ ?_
    · intro q hq; exact absurd hq (by simp [operandsOf])
    · intro q hq
      simp [operandsOf] at hq
      simp only [List.length_append, List.length_singleton]
      rcases hq with h | h <;> rw [h] <;> omega
  have hWF2 : WF (mulF a x (-1)).1 := by
    rw [h2]
    refine wf_push (wf_push hWF _ ?_) _ ?_
    · intro q hq; exact absurd hq (by simp [operandsOf])
    · intro q hq
      simp [operandsOf] at hq
      simp only [List.length_append, List.length_singleton]
      rcases hq with h | h <;> rw [h] <;> omega
  have hdata : ∀ j, (nodeD (negS a x).1 j).data =
      (nodeD (mulF a x (-1)).1 j).data := by
    intro j
    rw [h1, h2, nodeD_two_append_cases, nodeD_two_append_cases]
    split_ifs <;> dsimp only <;> ring
  have hgrad : ∀ j, (nodeD (negS a x).1 j).grad =
      (nodeD (mulF a x (-1)).1 j).grad := by
    intro j
    rw [h1, h2, nodeD_two_append_cases, nodeD_two_append_cases]
    split_ifs <;> rfl
  have hop : ∀ j, (nodeD (negS a x).1 j).op =
      (nodeD (mulF a x (-1)).1 j).op ∨
      ∃ s o, (nodeD (negS a x).1 j).op = Op.mul s o ∧
        (nodeD (mulF a x (-1)).1 j).op = Op.mul o s := by
    intro j
    rw [h1, h2, nodeD_two_append_cases, nodeD_two_append_cases]
    split_ifs
    · exact Or.inl rfl
    · exact Or.inl rfl
    · exact Or.inr ⟨a.length, x, rfl, rfl⟩
    · exact Or.inl rfl
  refine ⟨rfl, rfl, rfl, rfl, rfl, rfl, ?_, ?_, ?_⟩
  · rw [snd_negS, snd_mulF]
  · rw [snd_negS, snd_mulF]
    unfold dataOf
    rw [h1, h2, nodeD_two_append_cases, nodeD_two_append_cases,
      if_neg (by omega), if_neg (by omega), if_pos rfl,
      if_neg (by omega), if_neg (by omega), if_pos rfl]
    dsimp only
    ring
  · intro n
    rw [snd_negS, snd_mulF]
    exact backward_swap_mul (negS a x).1 (mulF a x (-1)).1 (a.length + 1)
      hWF1 hWF2 (hlen1.trans hlen2.symm) hdata hgrad hop
      (by rw [hlen1]; omega) n

/-- C4 witness: the derived-operator equivalences applied on the one-leaf
graph a = 3 with x = y = 0 and constant 5. -/
theorem derived_ops_equiv_witness :
    subS (scalar [] 3).1 0 0 =
      addS (negS (scalar [] 3).1 0).1 0 (negS (scalar [] 3).1 0).2 ∧
    divS (scalar [] 3).1 0 0 =
      mulS (powS (scalar [] 3).1 0 (-1)).1 0
        (powS (scalar [] 3).1 0 (-1)).2 ∧
    subF (scalar [] 3).1 0 5 = addF (scalar [] 3).1 0 (-5) ∧
    fSubS 5 (scalar [] 3).1 0 =
      fAddS 5 (negS (scalar [] 3).1 0).1 (negS (scalar [] 3).1 0).2 ∧
    divF (scalar [] 3).1 0 5 = mulF (scalar [] 3).1 0 (fpow 5 (-1)) ∧
    fDivS 5 (scalar [] 3).1 0 =
      fMulS 5 (powS (scalar [] 3).1 0 (-1)).1
        (powS (scalar [] 3).1 0 (-1)).2 ∧
    (negS (scalar [] 3).1 0).2 = (mulF (scalar [] 3).1 0 (-1)).2 ∧
    dataOf (negS (scalar [] 3).1 0).1 (negS (scalar [] 3).1 0).2 =
      dataOf (mulF (scalar [] 3).1 0 (-1)).1
        (mulF (scalar [] 3).1 0 (-1)).2 ∧
    (∀ n, gradOf
        (backward (negS (scalar [] 3).1 0).1 (negS (scalar [] 3).1 0).2)
        n =
      gradOf
        (backward (mulF (scalar [] 3).1 0 (-1)).1
          (mulF (scalar [] 3).1 0 (-1)).2) n) :=
  derived_ops_equiv (scalar [] 3).1 0 0 5 (by decide) (by decide)

/-! ### The model layer: evaluation totality and its fault -/

theorem neuronCall_isSome (a : Arena) (nr : Neuron) (x : List Nat)
    (hw : 2 ≤ nr.w.length) (hx : x ≠ []) : (neuronCall a nr x).isSome := by
  rcases nr with ⟨w, rl⟩
  rcases w with _ | ⟨b, ws⟩
  · simp at hw
  · rcases ws with _ | ⟨w1, ws2⟩
    · simp at hw
    · rcases x with _ | ⟨x0, xs⟩
      · exact absurd rfl hx
      · simp [neuronCall]

theorem layerCall_sound (a : Arena) (l : Layer) (x : List Nat)
    (hns : ∀ nr ∈ l.neurons, 2 ≤ nr.w.length) (hx : x ≠ []) :
    ∃ b ys, layerCall a l x = some (b, ys) ∧
      ys.length = l.neurons.length := by
  have main : ∀ (ns : List Neuron) (b : Arena) (ys : List Nat),
      (∀ nr ∈ ns, 2 ≤ nr.w.length) →
      ∃ b2 zs, ns.foldl
          (fun acc nr =>
            Option.bind acc (fun p =>
              Option.bind (neuronCall p.1 nr x) (fun q =>
                some (q.1, p.2 ++ [q.2]))))
          (some (b, ys)) = some (b2, zs) ∧
        zs.length = ys.length + ns.length := by
    intro ns
    induction ns with
    | nil => exact fun b ys _ => ⟨b, ys, rfl, by simp⟩
    | cons nr ns2 ih =>
        intro b ys hh
        have hsome := neuronCall_isSome b nr x
          (hh nr (List.mem_cons_self nr ns2)) hx
        obtain ⟨q, hq⟩ := Option.isSome_iff_exists.mp hsome
        rw [List.foldl_cons]
        have step : Option.bind (some (b, ys)) (fun p =>
            Option.bind (neuronCall p.1 nr x) (fun q =>
              some (q.1, p.2 ++ [q.2]))) = some (q.1, ys ++ [q.2]) := by
          rw [Option.some_bind, hq, Option.some_bind]
        rw [step]
        obtain ⟨b2, zs, he, hl⟩ :=
          ih q.1 (ys ++ [q.2]) (fun m hm => hh m (List.mem_cons_of_mem nr hm))
        refine ⟨b2, zs, he, ?_⟩
        rw [hl]
        simp
        omega
  obtain ⟨b2, zs, he, hl⟩ := main l.neurons a [] hns
  exact ⟨b2, zs, he, by rw [hl]; simp⟩

/-- C9, counterexample: a perceptron of input width 0 (its weight vector is
the bias alone, as minted by `neuron(0, _)`) faults on every call: the
product reduction unwraps an empty iterator. -/
theorem neuron_zero_width_faults :
    neuronCall (neuronNew (scalar [] 1).1 [1] false).1
      (neuronNew (scalar [] 1).1 [1] false).2 [0] = Option.none := rfl

/-- C9, amended: evaluation never faults provided every perceptron carries
at least one non-bias weight and receives a nonempty input sequence (for a
multi-layer network: every layer nonempty, so each stage feeds the next a
nonempty vector).  Handle-validity hypotheses mirror the claim's "handles
obtained from the same graph". -/
theorem model_eval_total :
    (∀ (a : Arena) (nr : Neuron) (x : List Nat),
      (∀ i ∈ nr.w, i < a.length) → (∀ i ∈ x, i < a.length) →
      2 ≤ nr.w.length → x ≠ [] → (neuronCall a nr x).isSome) ∧
    (∀ (a : Arena) (l : Layer) (x : List Nat),
      (∀ nr ∈ l.neurons, ∀ i ∈ nr.w, i < a.length) →
      (∀ i ∈ x, i < a.length) →
      (∀ nr ∈ l.neurons, 2 ≤ nr.w.length) → x ≠ [] →
      (layerCall a l x).isSome) ∧
    (∀ (a : Arena) (m : MLP) (x : List Nat),
      (∀ l ∈ m.layers, ∀ nr ∈ l.neurons, ∀ i ∈ nr.w, i < a.length) →
      (∀ i ∈ x, i < a.length) →
      (∀ l ∈ m.layers, l.neurons ≠ [] ∧
        ∀ nr ∈ l.neurons, 2 ≤ nr.w.length) →
      x ≠ [] → (mlpCall a m x).isSome) := by
  refine ⟨fun a nr x _ _ hw hx => neuronCall_isSome a nr x hw hx,
    fun a l x _ _ hns hx => ?_, fun a m x _ _ hls hx => ?_⟩
  · obtain ⟨b, ys, he, _⟩ := layerCall_sound a l x hns hx
    rw [he]; rfl
  · have main : ∀ (ls : List Layer) (b : Arena) (out : ModelOut),
        (∀ l ∈ ls, l.neurons ≠ [] ∧ ∀ nr ∈ l.neurons, 2 ≤ nr.w.length) →
        (match out with
         | ModelOut.vectorOut v => v ≠ []
         | _ => True) →
        (ls.foldl
          (fun acc l =>
            Option.bind acc (fun p =>
              match p.2 with
              | ModelOut.scalarOut s =>
                  Option.bind (layerCall p.1 l [s]) (fun q =>
                    some (q.1, ModelOut.vectorOut q.2))
              | ModelOut.vectorOut v =>
                  Option.bind (layerCall p.1 l v) (fun q =>
                    some (q.1, ModelOut.vectorOut q.2))
              | ModelOut.start =>
                  Option.bind (layerCall p.1 l x) (fun q =>
                    some (q.1, ModelOut.vectorOut q.2))))
          (some (b, out))).isSome := by
      intro ls
      induction ls with
      | nil => intro b out _ _; rfl
      | cons l ls2 ih =>
          intro b out hh hout
          have hl := hh l (List.mem_cons_self l ls2)
          rw [List.foldl_cons, Option.some_bind]
          rcases out with _ | s | v
          · dsimp only
            obtain ⟨b3, ys, he, hlen⟩ := layerCall_sound b l x hl.2 hx
            rw [he, Option.some_bind]
            refine ih b3 (ModelOut.vectorOut ys)
              (fun l2 h2 => hh l2 (List.mem_cons_of_mem l h2)) ?_
            intro hempty
            rw [hempty] at hlen
            exact hl.1 (List.length_eq_zero.mp hlen.symm)
          · dsimp only
            obtain ⟨b3, ys, he, hlen⟩ :=
              layerCall_sound b l [s] hl.2 (by simp)
            rw [he, Option.some_bind]
            refine ih b3 (ModelOut.vectorOut ys)
              (fun l2 h2 => hh l2 (List.mem_cons_of_mem l h2)) ?_
            intro hempty
            rw [hempty] at hlen
            exact hl.1 (List.length_eq_zero.mp hlen.symm)
          · dsimp only
            have hv : v ≠ [] := hout
            obtain ⟨b3, ys, he, hlen⟩ := layerCall_sound b l v hl.2 hv
            rw [he, Option.some_bind]
            refine ih b3 (ModelOut.vectorOut ys)
              (fun l2 h2 => hh l2 (List.mem_cons_of_mem l h2)) ?_
            intro hempty
            rw [hempty] at hlen
            exact hl.1 (List.length_eq_zero.mp hlen.symm)
    exact main m.layers a ModelOut.start hls trivial

/-- C9 witness: a one-weight-plus-bias perceptron, a one-perceptron layer
and a one-layer network all evaluate without fault on the two-leaf graph
with input handle 0. -/
theorem model_eval_total_witness :
    (neuronCall (scalar (scalar [] 1).1 2).1
      { w := [0, 1], relu := false } [0]).isSome ∧
    (layerCall (scalar (scalar [] 1).1 2).1
      { neurons := [{ w := [0, 1], relu := false }] } [0]).isSome ∧
    (mlpCall (scalar (scalar [] 1).1 2).1
      { layers := [{ neurons := [{ w := [0, 1], relu := false }] }] }
      [0]).isSome :=
  ⟨model_eval_total.1 _ { w := [0, 1], relu := false } [0]
      (by intro i hi; simp at hi; rcases hi with h | h <;> rw [h] <;> decide)
      (by intro i hi; simp at hi; rw [hi]; decide)
      (by decide) (by decide),
   model_eval_total.2.1 _ { neurons := [{ w := [0, 1], relu := false }] } [0]
      (by intro nr hnr i hi; simp at hnr; rw [hnr] at hi; simp at hi
          rcases hi with h | h <;> rw [h] <;> decide)
      (by intro i hi; simp at hi; rw [hi]; decide)
      (by intro nr hnr; simp at hnr; rw [hnr]; decide) (by decide),
   model_eval_total.2.2 _
      { layers := [{ neurons := [{ w := [0, 1], relu := false }] }] } [0]
      (by intro l hl nr hnr i hi
          simp at hl; rw [hl] at hnr; simp at hnr; rw [hnr] at hi
          simp at hi; rcases hi with h | h <;> rw [h] <;> decide)
      (by intro i hi; simp at hi; rw [hi]; decide)
      (by intro l hl; simp at hl; rw [hl]
          exact ⟨by simp, by intro nr hnr; simp at hnr; rw [hnr]; decide⟩)
      (by decide)⟩

end ScalarGrad
